import Mathlib

/-!
# Round-Robin scheduling test suite: verification development

This file embeds the Python sources of the `rr-test-suite` repository
(`rr.py`, `solver.py`, `gantt_parser.py`) as Lean definitions and proves
or refutes the specification's claims about them.

Conventions of the embedding:
* Python strings are modelled as `List Char`; Python `int` is `Int`.
* Python exceptions are modelled as `Option`/`Except` failure values
  (`none` / `.error`): a function that can raise returns `none` on the
  raising path.
* The scheduling engine proper is absent from the source (the body of
  `rr.py`'s `main` is a skeleton whose core reads `# Your code here` /
  `pass`); following the spec, the engine is modelled from the spec's
  words in the `RRSpecModel` section below, with each such definition
  marked `Modelled from the spec:`.
-/

namespace RRSuite

/-! ## Python string helpers over `List Char`

These model the Python `str` methods used by `rr.py`'s `init_processes`:
`str.rstrip`, `str.strip`, `str.split(",")` and the `int` constructor.
-/

/-- Python `str.isspace`-style whitespace test for a single character. -/
def isPySpace (c : Char) : Bool :=
  c = ' ' ∨ c = '\t' ∨ c = '\n' ∨ c = '\x0d' ∨ c = '\x0b' ∨ c = '\x0c'

/-- Python `str.lstrip()` (no argument): drop leading whitespace. -/
def pyLStrip (s : List Char) : List Char := s.dropWhile isPySpace

/-- Python `str.rstrip()` (no argument): drop trailing whitespace. -/
def pyRStrip (s : List Char) : List Char := (s.reverse.dropWhile isPySpace).reverse

/-- Python `str.strip()` (no argument): drop whitespace on both sides. -/
def pyStrip (s : List Char) : List Char := pyRStrip (pyLStrip s)

/-- Python `str.split(",")`: split on every comma, keeping empty pieces. -/
def splitOnComma (s : List Char) : List (List Char) :=
  match s with
  | [] => [[]]
  | c :: rest =>
    let tails := splitOnComma rest
    if c = ',' then [] :: tails
    else
      match tails with
      | [] => [[c]]
      | t :: ts => (c :: t) :: ts

/-- Digit-string to number: `none` unless the string is one or more
decimal digits. -/
def parseDigits (s : List Char) : Option Nat :=
  match s with
  | [] => none
  | _ =>
    s.foldl (fun acc c =>
      match acc with
      | none => none
      | some n => if c.isDigit then some (n * 10 + (c.toNat - '0'.toNat)) else none)
      (some 0)

/-- Python `int(s)` on an already-stripped string: an optional sign
followed by one or more digits; anything else raises `ValueError`
(modelled as `none`). -/
def parseSignedInt (s : List Char) : Option Int :=
  match s with
  | '-' :: rest => (parseDigits rest).map (fun n => -(n : Int))
  | '+' :: rest => (parseDigits rest).map (fun n => (n : Int))
  | _ => (parseDigits s).map (fun n => (n : Int))

/-- Python `int(s)` for a general string: `int` ignores surrounding
whitespace, then parses an optionally signed decimal numeral. -/
def pyInt (s : List Char) : Option Int := parseSignedInt (pyStrip s)

/-! ## `rr.py`: `process_t` and `init_processes` -/

/-- `rr.py` `process_t`: one entry of the input file (the source
dataclass has exactly these three fields; the "Additional fields"
section of the skeleton is empty). -/
structure process_t where
  pid : Int
  arrival_time : Int
  burst_time : Int
deriving DecidableEq, Repr

instance : Inhabited process_t := ⟨⟨0, 0, 0⟩⟩

/-- One iteration of `init_processes`' `for line in fp` loop body:
`nums = [int(s.strip()) for s in line.rstrip().split(",")]` followed by
the three-way unpack `pid, arrival_time, burst_time = nums` (which
raises unless there are exactly three numbers) and construction of the
`process_t`.  A raised `ValueError` is modelled as `none`. -/
def parse_line (line : List Char) : Option process_t :=
  match (splitOnComma (pyRStrip line)).mapM (fun s => pyInt (pyStrip s)) with
  | some [pid, arrival_time, burst_time] => some ⟨pid, arrival_time, burst_time⟩
  | _ => none

/-- The accumulation loop of `init_processes`: parse each remaining
line, appending each resulting record to `data`; a parse failure aborts
the whole call (the Python exception propagates). -/
def init_loop : List (List Char) → List process_t → Option (List process_t)
  | [], data => some data
  | line :: rest, data =>
    match parse_line line with
    | none => none
    | some p => init_loop rest (data ++ [p])

/-- `rr.py` `init_processes`: the file is a list of lines; the first
line is read and discarded (`fp.readline()`), then every following line
is parsed into a `process_t`, in file order.  An empty file yields the
empty list. -/
def init_processes (file_lines : List (List Char)) : Option (List process_t) :=
  match file_lines with
  | [] => some []
  | _first :: rest => init_loop rest []

/-! ## `rr.py`: `process_list_t` queue operations -/

/-- The queue wraps a deque of `process_t`; we model the deque as a
Lean list with the front at the head. -/
abbrev process_list_t : Type := List process_t

namespace process_list_t

/-- `process_list_t.empty`: whether the queue has zero elements. -/
def empty (q : process_list_t) : Bool := List.isEmpty q

/-- `process_list_t.first`: the first element, or `None` if empty. -/
def first (q : process_list_t) : Option process_t := List.head? q

/-- `process_list_t.remove`: `deque.remove` deletes the first element
equal to the argument and raises `ValueError` (modelled `none`) when no
element matches. -/
def remove (x : process_t) : process_list_t → Option process_list_t
  | [] => none
  | y :: rest =>
    if x = y then some rest
    else (remove x rest).map (fun r => y :: r)

/-- `process_list_t.insert_tail`: append at the back. -/
def insert_tail (q : process_list_t) (x : process_t) : process_list_t :=
  q ++ [x]

/-- The spec's `pop_front` contract realised with the source
operations: read the front via `first` and delete it via `remove`.
The failure value `none` models the empty-queue failure path. -/
def pop_front (q : process_list_t) : Option (process_t × process_list_t) :=
  match first q with
  | none => none
  | some x =>
    match remove x q with
    | none => none
    | some rest => some (x, rest)

end process_list_t

/-! ## `rr.py`: quantum validation in `main` -/

/-- `rr.py` `EINVAL`. -/
def EINVAL : Nat := 22

/-- The quantum validation of `rr.py` `main` (lines 168-173): the
parsed quantum is rejected with exit code `EINVAL` exactly when it is
negative (`if quantum_length < 0: raise ValueError(...)`, caught and
turned into `return EINVAL`); any non-negative value, including `0`,
passes. -/
def quantum_check (quantum_length : Int) : Except Nat Int :=
  if quantum_length < 0 then Except.error EINVAL else Except.ok quantum_length

/-! ## `gantt_parser.py` / `solver.py`: `GanttChartParser`

The class is a `html.parser.HTMLParser` subclass; we model the event
callbacks (`handle_starttag`, `handle_endtag`, `handle_data`) directly
over a stream of HTML events, which is exactly the interface the
library hands the class. -/

/-- The mutable state of `GanttChartParser` (`__init__`).
`next_row_type` is the two-valued `Literal["pids", "times"]`, with
`true` standing for `"pids"`. -/
structure GanttChartParser where
  in_gantt_chart : Bool
  in_combined_row : Bool
  in_pids_row : Bool
  in_times_row : Bool
  in_pid_cell : Bool
  in_time_cell : Bool
  next_row_type_pids : Bool
  pids : List (List Char)
  times : List Int
deriving DecidableEq, Repr

/-- The freshly constructed parser state. -/
def GanttChartParser.init : GanttChartParser :=
  ⟨false, false, false, false, false, false, true, [], []⟩

/-- One event handed to the parser by `HTMLParser.feed`. -/
inductive HtmlEvent where
  | starttag (tag : List Char) (attrs : List (List Char × Option (List Char)))
  | endtag (tag : List Char)
  | data (d : List Char)
deriving DecidableEq, Repr

/-- `GanttChartParser.OUTERMOST_DIV_CLASSNAME`. -/
def OUTERMOST_DIV_CLASSNAME : List Char := "sc-a3b21388-0 evwFKR".data

/-- `dict(attrs).get("class")`: the last binding of a key wins when a
`dict` is built from a pair list, and `.get` yields `None` when the key
is absent (an attribute present with value `None` also yields `None`). -/
def classOfAttrs (attrs : List (List Char × Option (List Char))) : Option (List Char) :=
  match (attrs.reverse.find? (fun kv => kv.1 = "class".data)) with
  | none => none
  | some kv => kv.2

/-- `GanttChartParser.handle_starttag`. -/
def GanttChartParser.handle_starttag (p : GanttChartParser) (tag : List Char)
    (attrs : List (List Char × Option (List Char))) : GanttChartParser :=
  if tag ≠ "div".data then p
  else if p.in_pids_row then { p with in_pid_cell := true }
  else if p.in_times_row then { p with in_time_cell := true }
  else if p.in_combined_row then
    if p.next_row_type_pids then
      { p with in_pids_row := true, next_row_type_pids := false }
    else
      { p with in_times_row := true, next_row_type_pids := true }
  else if p.in_gantt_chart then { p with in_combined_row := true }
  else if classOfAttrs attrs = some OUTERMOST_DIV_CLASSNAME then
    { p with in_gantt_chart := true }
  else p

/-- `GanttChartParser.handle_endtag`. -/
def GanttChartParser.handle_endtag (p : GanttChartParser) (tag : List Char) :
    GanttChartParser :=
  if tag ≠ "div".data then p
  else if p.in_pid_cell then { p with in_pid_cell := false }
  else if p.in_time_cell then { p with in_time_cell := false }
  else if p.in_pids_row then { p with in_pids_row := false }
  else if p.in_times_row then { p with in_times_row := false }
  else if p.in_combined_row then { p with in_combined_row := false }
  else if p.in_gantt_chart then { p with in_gantt_chart := false }
  else p

/-- `GanttChartParser.handle_data`: a pid cell's text is appended to
`pids`; a time cell's text is parsed with `int(data)` (`none` models
the `ValueError` path) and appended to `times` unless it equals the
last recorded time (the chart-row-wrapping deduplication). -/
def GanttChartParser.handle_data (p : GanttChartParser) (d : List Char) :
    Option GanttChartParser :=
  if p.in_pid_cell then some { p with pids := p.pids ++ [d] }
  else if p.in_time_cell then
    match pyInt d with
    | none => none
    | some time =>
      if p.times = [] ∨ p.times.getLast? ≠ some time then
        some { p with times := p.times ++ [time] }
      else some p
  else some p

/-- Dispatch one event to the matching handler. -/
def GanttChartParser.handle_event (p : GanttChartParser) :
    HtmlEvent → Option GanttChartParser
  | HtmlEvent.starttag tag attrs => some (p.handle_starttag tag attrs)
  | HtmlEvent.endtag tag => some (p.handle_endtag tag)
  | HtmlEvent.data d => p.handle_data d

/-- `HTMLParser.feed`: run the handlers over the document's event
stream; an exception escaping a handler aborts the feed. -/
def GanttChartParser.feed (p : GanttChartParser) :
    List HtmlEvent → Option GanttChartParser
  | [] => some p
  | e :: rest =>
    match p.handle_event e with
    | none => none
    | some p' => p'.feed rest

/-- `GanttChartParser.get_times`. -/
def GanttChartParser.get_times (p : GanttChartParser) : List Int := p.times

/-- `GanttChartParser.get_pids`. -/
def GanttChartParser.get_pids (p : GanttChartParser) : List (List Char) := p.pids

end RRSuite

namespace RRSpecModel

/-!
## The simulation engine, modelled from the spec

The algorithmic core of `rr.py`'s `main` is missing from the source
(the skeleton reads `# Your code here` / `pass`); the spec states that
it "reconstructs the intended algorithm rather than porting missing
code".  Every definition in this section is therefore modelled from the
spec's §3-§4 wording and is marked as such.
-/

/-- Modelled from the spec: the Process record of §3 — missing from
`rr.py`, whose `process_t` carries only the three input fields.  The
immutable input triple plus the engine-mutated fields `remaining_time`
(initialised to `burst_time`), `first_dispatch_time` (set exactly once,
at first dispatch) and `completion_time` (set exactly once, when
`remaining_time` reaches zero). -/
structure SimProc where
  pid : Int
  arrival_time : Nat
  burst_time : Nat
  remaining_time : Nat
  first_dispatch_time : Option Nat
  completion_time : Option Nat
deriving DecidableEq, Repr

instance : Inhabited SimProc := ⟨⟨0, 0, 0, 0, none, none⟩⟩

/-- Modelled from the spec: the engine state of §4.2 — missing from
`rr.py`.  `procs` is the process set indexed by input order; `pending`
the not-yet-admitted indices, in input order; `queue` the ready queue
of indices (front at the head); `t` the global discrete clock; `trace`
the execution trace of `(process index, start, end)` dispatch
intervals. -/
structure EngineState where
  procs : List SimProc
  pending : List Nat
  queue : List Nat
  t : Nat
  trace : List (Nat × Nat × Nat)
deriving DecidableEq, Repr

/-- The process record at index `i`. -/
def getP (s : EngineState) (i : Nat) : SimProc := s.procs.getD i default

/-- Insert index `i` into a list sorted by arrival time, after any
element with the same arrival time (a stable insertion). -/
def insertByArrival (procs : List SimProc) (i : Nat) : List Nat → List Nat
  | [] => [i]
  | j :: rest =>
    if (procs.getD i default).arrival_time ≤ (procs.getD j default).arrival_time then
      i :: j :: rest
    else j :: insertByArrival procs i rest

/-- Stable insertion sort by arrival time: ties keep the order of the
input list, which is the spec's "ties broken by input order". -/
def sortByArrival (procs : List SimProc) : List Nat → List Nat
  | [] => []
  | i :: rest => insertByArrival procs i (sortByArrival procs rest)

/-- Modelled from the spec: §4.2 step 1 (Admission) — missing from
`rr.py`.  Every not-yet-admitted process whose `arrival_time ≤ t` is
appended to the back of the ready queue, in ascending arrival-time
order with ties broken by input order. -/
def admitArrivals (s : EngineState) : EngineState :=
  let arrived := s.pending.filter (fun i => (getP s i).arrival_time ≤ s.t)
  let staying := s.pending.filter (fun i => ¬ (getP s i).arrival_time ≤ s.t)
  { s with pending := staying, queue := s.queue ++ sortByArrival s.procs arrived }

/-- Minimum of a list of times, with a default for the empty list. -/
def minList (t : Nat) : List Nat → Nat
  | [] => t
  | a :: rest => rest.foldl min a

/-- The earliest arrival time among pending processes (defaults to the
current clock when nothing is pending; only used when `pending ≠ []`). -/
def nextArrival (s : EngineState) : Nat :=
  minList s.t (s.pending.map (fun i => (getP s i).arrival_time))

/-- §4.2 step 3, second half: set `first_dispatch_time` to the current
clock if it is still unset (the only point where response time becomes
determinable). -/
def touchFD (t : Nat) (p : SimProc) : SimProc :=
  if p.first_dispatch_time = none then { p with first_dispatch_time := some t } else p

/-- §4.2 step 4: `run_length = min(quantum, remaining_time)` for the
dispatched process (after the first-dispatch touch, which does not
change `remaining_time`). -/
def sliceLen (quantum : Nat) (s : EngineState) (i : Nat) : Nat :=
  min quantum (touchFD s.t (getP s i)).remaining_time

/-- The clock value after the run step: `t + run_length`. -/
def sliceT (quantum : Nat) (s : EngineState) (i : Nat) : Nat :=
  s.t + sliceLen quantum s i

/-- The dispatched process after the run step: first-dispatch touched
and `remaining_time` decremented by `run_length`. -/
def sliceProc (quantum : Nat) (s : EngineState) (i : Nat) : SimProc :=
  let p1 := touchFD s.t (getP s i)
  { p1 with remaining_time := p1.remaining_time - sliceLen quantum s i }

/-- §4.2 step 5 outcome (completion): `remaining_time` reached zero, so
`completion_time` is set to the new clock and the process leaves the
system (it is not requeued). -/
def completeState (quantum : Nat) (i : Nat) (rest : List Nat) (s : EngineState) :
    EngineState :=
  { s with
    procs := s.procs.set i { sliceProc quantum s i with completion_time := some (sliceT quantum s i) },
    queue := rest,
    t := sliceT quantum s i,
    trace := s.trace ++ [(i, s.t, sliceT quantum s i)] }

/-- The engine state right after the run step in the preemption case:
the preempted process is written back to the record set but sits in
neither the queue nor the pending list (it is still "running"). -/
def slicedState (quantum : Nat) (i : Nat) (rest : List Nat) (s : EngineState) :
    EngineState :=
  { s with procs := s.procs.set i (sliceProc quantum s i),
           queue := rest, t := sliceT quantum s i,
           trace := s.trace ++ [(i, s.t, sliceT quantum s i)] }

/-- §4.2 step 6 outcome (requeue): before placing the preempted process
back, Admission runs for the new instant, so that any process that
arrived during (or exactly at the end of) the slice is enqueued first;
only then is the preempted process pushed to the back. -/
def requeueState (quantum : Nat) (i : Nat) (rest : List Nat) (s : EngineState) :
    EngineState :=
  { admitArrivals (slicedState quantum i rest s) with
    queue := (admitArrivals (slicedState quantum i rest s)).queue ++ [i] }

/-- §4.2 steps 4-6 for the popped front process `i`, with queue
remainder `rest`. -/
def runSlice (quantum : Nat) (i : Nat) (rest : List Nat) (s : EngineState) :
    EngineState :=
  if (sliceProc quantum s i).remaining_time = 0 then completeState quantum i rest s
  else requeueState quantum i rest s

/-- Modelled from the spec: §4.2 steps 3-6 (Dispatch, Run, Completion
check, Requeue) — missing from `rr.py`.  Pop the queue front; set
`first_dispatch_time` if unset; run `min quantum remaining` units,
advancing the clock and appending one trace entry; on completion set
`completion_time`, otherwise perform Admission at the new instant and
only then push the preempted process to the back of the queue. -/
def dispatchRun (quantum : Nat) (s : EngineState) : EngineState :=
  match s.queue with
  | [] => s
  | i :: rest => runSlice quantum i rest s

/-- Modelled from the spec: the §4.2 loop — missing from `rr.py`.
Each iteration performs Admission, then either terminates (nothing
queued or pending), jumps the clock to the next arrival and re-runs
Admission (step 2), or dispatches the queue front (steps 3-6).  The
loop is fuel-indexed; the termination theorem exhibits sufficient
fuel. -/
def run (quantum : Nat) : Nat → EngineState → EngineState
  | 0, s => s
  | fuel + 1, s =>
    let s1 := admitArrivals s
    if s1.queue.isEmpty then
      if s1.pending.isEmpty then s1
      else run quantum fuel (admitArrivals { s1 with t := nextArrival s1 })
    else
      run quantum fuel (dispatchRun quantum s1)

/-- Modelled from the spec: initial state construction — missing from
`rr.py`.  All records are created from the input triples before
simulation; the clock starts at the minimum arrival time (0 for an
empty set); queue and trace start empty. -/
def initState (input : List (Int × Nat × Nat)) : EngineState :=
  let procs := input.map (fun r => SimProc.mk r.1 r.2.1 r.2.2 r.2.2 none none)
  { procs := procs,
    pending := List.range procs.length,
    queue := [],
    t := match procs.map (fun p => p.arrival_time) with
         | [] => 0
         | a :: rest => rest.foldl min a,
    trace := [] }

/-- The sum of remaining times, the clock-progress part of the loop
measure. -/
def remSum (s : EngineState) : Nat := (s.procs.map (fun p => p.remaining_time)).sum

/-- A fuel bound for the loop: every iteration either admits a pending
process or consumes at least one unit of remaining burst. -/
def fuelBound (s : EngineState) : Nat := s.pending.length + remSum s

/-- The final state of the simulation on a given input and quantum. -/
def finalState (input : List (Int × Nat × Nat)) (quantum : Nat) : EngineState :=
  run quantum (fuelBound (initState input)) (initState input)

/-- Modelled from the spec: §4.3 — missing from `rr.py`.
`response_time = first_dispatch_time - arrival_time`; `none` while the
process has not been dispatched. -/
def response_time (p : SimProc) : Option Int :=
  p.first_dispatch_time.map (fun fd => (fd : Int) - (p.arrival_time : Int))

/-- Modelled from the spec: §4.3 — missing from `rr.py`.
`waiting_time = completion_time - arrival_time - burst_time`; `none`
while the process is incomplete. -/
def waiting_time (p : SimProc) : Option Int :=
  p.completion_time.map (fun c => (c : Int) - (p.arrival_time : Int) - (p.burst_time : Int))

/-- Modelled from the spec: the per-process accumulation
`total_waiting_time += ...` of `rr.py` lines 181-188, whose loop body
is missing — the exact integer sum of the per-process waiting times. -/
def total_waiting_time (s : EngineState) : Int :=
  s.procs.foldl (fun acc p => acc + (waiting_time p).getD 0) 0

/-- Modelled from the spec: the accumulation `total_response_time += ...`
of `rr.py` lines 181-188, whose loop body is missing. -/
def total_response_time (s : EngineState) : Int :=
  s.procs.foldl (fun acc p => acc + (response_time p).getD 0) 0

/-- `rr.py` line 190: `avg_waiting_time = float(total_waiting_time / size)`.
The division is a single exact division of the integer total by the
process count, performed only at the reporting boundary; `size = 0`
raises `ZeroDivisionError`, modelled as `none`. -/
def avg_waiting_time (s : EngineState) : Option ℚ :=
  if s.procs.length = 0 then none
  else some ((total_waiting_time s : ℚ) / (s.procs.length : ℚ))

/-- `rr.py` line 191: `avg_response_time = float(total_response_time / size)`. -/
def avg_response_time (s : EngineState) : Option ℚ :=
  if s.procs.length = 0 then none
  else some ((total_response_time s : ℚ) / (s.procs.length : ℚ))

/-! ### List helper lemmas -/

theorem getD_set_self {α : Type} {l : List α} {i : Nat} {x d : α} (h : i < l.length) :
    (l.set i x).getD i d = x := by
  induction l generalizing i with
  | nil => simp at h
  | cons y ys ih =>
    cases i with
    | zero => rfl
    | succ n => simpa using ih (by simpa using h)

theorem getD_set_ne {α : Type} {l : List α} {i j : Nat} (x d : α) (h : i ≠ j) :
    (l.set i x).getD j d = l.getD j d := by
  induction l generalizing i j with
  | nil => simp [List.set]
  | cons y ys ih =>
    cases i with
    | zero =>
      cases j with
      | zero => exact absurd rfl h
      | succ m => rfl
    | succ n =>
      cases j with
      | zero => rfl
      | succ m => simpa using ih (fun hnm => h (by rw [hnm]))

theorem getD_mem {α : Type} {l : List α} {i : Nat} {d : α} (h : i < l.length) :
    l.getD i d ∈ l := by
  induction l generalizing i with
  | nil => simp at h
  | cons y ys ih =>
    cases i with
    | zero => simp
    | succ n =>
      simp only [List.getD_cons_succ]
      exact List.mem_cons_of_mem y (ih (by simpa using h))

theorem mem_getD {α : Type} {l : List α} {p : α} (h : p ∈ l) (d : α) :
    ∃ i, i < l.length ∧ l.getD i d = p := by
  induction l with
  | nil => simp at h
  | cons y ys ih =>
    rcases List.mem_cons.mp h with h1 | h2
    · exact ⟨0, by simp, h1.symm⟩
    · obtain ⟨i, hi, he⟩ := ih h2
      exact ⟨i + 1, by simpa using hi, by simpa using he⟩

theorem sum_map_set {α : Type} (f : α → Nat) (l : List α) (i : Nat) (x d : α)
    (h : i < l.length) :
    ((l.set i x).map f).sum + f (l.getD i d) = (l.map f).sum + f x := by
  induction l generalizing i with
  | nil => simp at h
  | cons y ys ih =>
    cases i with
    | zero => simp [Nat.add_comm, Nat.add_left_comm]
    | succ n =>
      have := ih n (by simpa using h)
      simp only [List.set_cons_succ, List.map_cons, List.sum_cons, List.getD_cons_succ]
      omega

theorem filter_length_lt {α : Type} {l : List α} {p : α → Bool} {a : α}
    (ha : a ∈ l) (hp : p a = false) : (l.filter p).length < l.length := by
  induction l with
  | nil => simp at ha
  | cons y ys ih =>
    rcases List.mem_cons.mp ha with h1 | h2
    · subst h1
      simp only [List.filter_cons, hp]
      exact Nat.lt_succ_of_le (List.length_filter_le p ys)
    · by_cases hy : p y = true
      · simp only [List.filter_cons, hy, if_true]
        simpa using ih h2
      · simp only [List.filter_cons, hy, if_false]
        exact Nat.lt_succ_of_lt (ih h2)

theorem foldl_min_le_init (l : List Nat) (a : Nat) : l.foldl min a ≤ a := by
  induction l generalizing a with
  | nil => simp
  | cons y ys ih =>
    calc (y :: ys).foldl min a = ys.foldl min (min a y) := rfl
    _ ≤ min a y := ih (min a y)
    _ ≤ a := Nat.min_le_left a y

theorem foldl_min_le_mem (l : List Nat) (a : Nat) {x : Nat} (hx : x ∈ l) :
    l.foldl min a ≤ x := by
  induction l generalizing a with
  | nil => simp at hx
  | cons y ys ih =>
    rcases List.mem_cons.mp hx with h1 | h2
    · subst h1
      calc (x :: ys).foldl min a = ys.foldl min (min a x) := rfl
      _ ≤ min a x := foldl_min_le_init ys (min a x)
      _ ≤ x := Nat.min_le_right a x
    · exact ih (min a y) h2

theorem foldl_min_mem (l : List Nat) (a : Nat) : l.foldl min a ∈ a :: l := by
  induction l generalizing a with
  | nil => simp
  | cons y ys ih =>
    have h := ih (min a y)
    rcases List.mem_cons.mp h with h1 | h2
    · rcases Nat.le_total a y with hle | hle
      · have he : min a y = a := Nat.min_eq_left hle
        exact List.mem_cons.mpr (Or.inl (by rw [List.foldl_cons, h1, he]))
      · have he : min a y = y := Nat.min_eq_right hle
        have : (y :: ys).foldl min a = y := by rw [List.foldl_cons, h1, he]
        rw [this]; simp
    · exact List.mem_cons.mpr (Or.inr (List.mem_cons.mpr (Or.inr h2)))

/-! ### Invariant -/

/-- A decidability helper for optional-field clauses. -/
instance decidableExOptNat (o : Option Nat) (P : Nat → Prop) [DecidablePred P] :
    Decidable (∃ c, o = some c ∧ P c) :=
  match o with
  | none => isFalse (fun ⟨_, h, _⟩ => Option.noConfusion h)
  | some a =>
    decidable_of_iff (P a)
      ⟨fun h => ⟨a, rfl, h⟩, fun ⟨c, hc, h⟩ => by cases hc; exact h⟩

/-- What it means for a process record to have left the system: burst
fully consumed, `completion_time` no earlier than `arrival + burst`,
and a first dispatch no earlier than arrival. -/
def doneOK (p : SimProc) : Prop :=
  p.remaining_time = 0 ∧
  (∃ c, p.completion_time = some c ∧ p.arrival_time + p.burst_time ≤ c) ∧
  (∃ fd, p.first_dispatch_time = some fd ∧ p.arrival_time ≤ fd)

instance (p : SimProc) : Decidable (doneOK p) := by
  unfold doneOK; infer_instance

/-- The engine's loop invariant, asserted at iteration boundaries (no
process is "running" between iterations). -/
structure Inv (s : EngineState) : Prop where
  pend_lt : ∀ i ∈ s.pending, i < s.procs.length
  queue_lt : ∀ i ∈ s.queue, i < s.procs.length
  pend_nodup : s.pending.Nodup
  queue_nodup : s.queue.Nodup
  disj : ∀ i ∈ s.pending, i ∉ s.queue
  burst_pos : ∀ p ∈ s.procs, 1 ≤ p.burst_time
  pend_fresh : ∀ i ∈ s.pending, (getP s i).remaining_time = (getP s i).burst_time ∧
    (getP s i).completion_time = none ∧ (getP s i).first_dispatch_time = none
  queue_live : ∀ i ∈ s.queue, 1 ≤ (getP s i).remaining_time ∧
    (getP s i).completion_time = none
  queue_arr : ∀ i ∈ s.queue, (getP s i).arrival_time ≤ s.t
  queue_exec : ∀ i ∈ s.queue,
    (getP s i).arrival_time + (getP s i).burst_time ≤ s.t + (getP s i).remaining_time
  queue_fd : ∀ i ∈ s.queue, (getP s i).first_dispatch_time = none ∨
    ∃ fd, (getP s i).first_dispatch_time = some fd ∧ (getP s i).arrival_time ≤ fd
  done_ok : ∀ i, i < s.procs.length → i ∉ s.pending → i ∉ s.queue → doneOK (getP s i)

/-- `Inv` as a plain conjunction, for decidability. -/
def InvHolds (s : EngineState) : Prop :=
  (∀ i ∈ s.pending, i < s.procs.length) ∧
  (∀ i ∈ s.queue, i < s.procs.length) ∧
  s.pending.Nodup ∧
  s.queue.Nodup ∧
  (∀ i ∈ s.pending, i ∉ s.queue) ∧
  (∀ p ∈ s.procs, 1 ≤ p.burst_time) ∧
  (∀ i ∈ s.pending, (getP s i).remaining_time = (getP s i).burst_time ∧
    (getP s i).completion_time = none ∧ (getP s i).first_dispatch_time = none) ∧
  (∀ i ∈ s.queue, 1 ≤ (getP s i).remaining_time ∧
    (getP s i).completion_time = none) ∧
  (∀ i ∈ s.queue, (getP s i).arrival_time ≤ s.t) ∧
  (∀ i ∈ s.queue,
    (getP s i).arrival_time + (getP s i).burst_time ≤ s.t + (getP s i).remaining_time) ∧
  (∀ i ∈ s.queue, (getP s i).first_dispatch_time = none ∨
    ∃ fd, (getP s i).first_dispatch_time = some fd ∧ (getP s i).arrival_time ≤ fd) ∧
  (∀ i, i < s.procs.length → i ∉ s.pending → i ∉ s.queue → doneOK (getP s i))

theorem inv_iff (s : EngineState) : Inv s ↔ InvHolds s := by
  constructor
  · rintro ⟨h1, h2, h3, h4, h5, h6, h7, h8, h9, h10, h11, h12⟩
    exact ⟨h1, h2, h3, h4, h5, h6, h7, h8, h9, h10, h11, h12⟩
  · rintro ⟨h1, h2, h3, h4, h5, h6, h7, h8, h9, h10, h11, h12⟩
    exact ⟨h1, h2, h3, h4, h5, h6, h7, h8, h9, h10, h11, h12⟩

instance decidableInvHolds (s : EngineState) : Decidable (InvHolds s) := by
  unfold InvHolds; infer_instance

instance (s : EngineState) : Decidable (Inv s) :=
  decidable_of_iff (InvHolds s) (inv_iff s).symm

/-! ### Facts about the stable insertion sort -/

theorem insertByArrival_perm (procs : List SimProc) (i : Nat) (l : List Nat) :
    List.Perm (insertByArrival procs i l) (i :: l) := by
  induction l with
  | nil => exact List.Perm.refl _
  | cons j rest ih =>
    unfold insertByArrival
    split
    · exact List.Perm.refl _
    · exact (List.Perm.cons j ih).trans (List.Perm.swap i j rest)

theorem sortByArrival_perm (procs : List SimProc) (l : List Nat) :
    List.Perm (sortByArrival procs l) l := by
  induction l with
  | nil => exact List.Perm.refl _
  | cons i rest ih =>
    unfold sortByArrival
    exact (insertByArrival_perm procs i _).trans (List.Perm.cons i ih)

theorem mem_sortByArrival {procs : List SimProc} {l : List Nat} {i : Nat} :
    i ∈ sortByArrival procs l ↔ i ∈ l :=
  (sortByArrival_perm procs l).mem_iff

theorem sortByArrival_nodup {procs : List SimProc} {l : List Nat} (h : l.Nodup) :
    (sortByArrival procs l).Nodup :=
  (sortByArrival_perm procs l).nodup_iff.mpr h

/-! ### Facts about `admitArrivals` -/

theorem admit_procs (s : EngineState) : (admitArrivals s).procs = s.procs := rfl

theorem admit_t (s : EngineState) : (admitArrivals s).t = s.t := rfl

theorem admit_trace (s : EngineState) : (admitArrivals s).trace = s.trace := rfl

theorem admit_getP (s : EngineState) (i : Nat) : getP (admitArrivals s) i = getP s i := rfl

theorem admit_pending (s : EngineState) :
    (admitArrivals s).pending = s.pending.filter (fun i => ¬ (getP s i).arrival_time ≤ s.t) := rfl

theorem admit_queue (s : EngineState) :
    (admitArrivals s).queue = s.queue ++
      sortByArrival s.procs (s.pending.filter (fun i => (getP s i).arrival_time ≤ s.t)) := rfl

/-- Membership in the pending list after admission: still pending and
not yet arrived. -/
theorem mem_admit_pending {s : EngineState} {i : Nat} :
    i ∈ (admitArrivals s).pending ↔ i ∈ s.pending ∧ s.t < (getP s i).arrival_time := by
  rw [admit_pending]
  simp [List.mem_filter, Nat.lt_iff_add_one_le, Nat.not_le]

/-- Membership in the queue after admission. -/
theorem mem_admit_queue {s : EngineState} {i : Nat} :
    i ∈ (admitArrivals s).queue ↔ i ∈ s.queue ∨
      (i ∈ s.pending ∧ (getP s i).arrival_time ≤ s.t) := by
  rw [admit_queue]
  simp [List.mem_append, mem_sortByArrival, List.mem_filter]

/-- A pending process splits into staying or admitted. -/
theorem admit_pending_cases {s : EngineState} {i : Nat} (h : i ∈ s.pending) :
    i ∈ (admitArrivals s).pending ∨ i ∈ (admitArrivals s).queue := by
  by_cases harr : (getP s i).arrival_time ≤ s.t
  · exact Or.inr (mem_admit_queue.mpr (Or.inr ⟨h, harr⟩))
  · exact Or.inl (mem_admit_pending.mpr ⟨h, Nat.lt_of_not_le harr⟩)

theorem admit_inv {s : EngineState} (h : Inv s) : Inv (admitArrivals s) := by
  obtain ⟨pend_lt, queue_lt, pend_nodup, queue_nodup, disj, burst_pos, pend_fresh,
    queue_live, queue_arr, queue_exec, queue_fd, done_ok⟩ := h
  have hql : ∀ i ∈ (admitArrivals s).queue, i < s.procs.length := by
    intro i hi
    rcases mem_admit_queue.mp hi with hq | ⟨hp, _⟩
    · exact queue_lt i hq
    · exact pend_lt i hp
  refine ⟨?_, ?_, ?_, ?_, ?_, ?_, ?_, ?_, ?_, ?_, ?_, ?_⟩
  · intro i hi
    exact pend_lt i (mem_admit_pending.mp hi).1
  · exact hql
  · rw [admit_pending]
    exact pend_nodup.filter _
  · rw [admit_queue]
    refine List.Nodup.append queue_nodup (sortByArrival_nodup (pend_nodup.filter _)) ?_
    intro i hiq his
    have hip : i ∈ s.pending := (List.mem_filter.mp (mem_sortByArrival.mp his)).1
    exact disj i hip hiq
  · intro i hi
    obtain ⟨hip, hlt⟩ := mem_admit_pending.mp hi
    intro hiq
    rcases mem_admit_queue.mp hiq with hq | ⟨_, harr⟩
    · exact disj i hip hq
    · exact absurd harr (Nat.not_le_of_lt hlt)
  · exact burst_pos
  · intro i hi
    exact pend_fresh i (mem_admit_pending.mp hi).1
  · intro i hi
    rcases mem_admit_queue.mp hi with hq | ⟨hp, _⟩
    · exact queue_live i hq
    · obtain ⟨hrm, hco, _⟩ := pend_fresh i hp
      refine ⟨?_, hco⟩
      show 1 ≤ (getP s i).remaining_time
      rw [hrm]
      exact burst_pos _ (getD_mem (pend_lt i hp))
  · intro i hi
    rw [admit_t]
    rcases mem_admit_queue.mp hi with hq | ⟨_, harr⟩
    · exact queue_arr i hq
    · exact harr
  · intro i hi
    rw [admit_t]
    rcases mem_admit_queue.mp hi with hq | ⟨hp, harr⟩
    · exact queue_exec i hq
    · obtain ⟨hrm, _, _⟩ := pend_fresh i hp
      rw [admit_getP, hrm]
      exact Nat.add_le_add_right harr _
  · intro i hi
    rcases mem_admit_queue.mp hi with hq | ⟨hp, _⟩
    · exact queue_fd i hq
    · exact Or.inl (pend_fresh i hp).2.2
  · intro i hilt hinp hinq
    have hilt' : i < s.procs.length := by simpa [admit_procs] using hilt
    have hip : i ∉ s.pending := by
      intro hip
      rcases admit_pending_cases hip with hc | hc
      · exact hinp hc
      · exact hinq hc
    have hiq : i ∉ s.queue := by
      intro hiq
      exact hinq (mem_admit_queue.mpr (Or.inl hiq))
    exact done_ok i hilt' hip hiq

/-! ### Facts about the dispatch slice -/

theorem touchFD_remaining (t : Nat) (p : SimProc) :
    (touchFD t p).remaining_time = p.remaining_time := by
  unfold touchFD; split <;> rfl

theorem touchFD_arrival (t : Nat) (p : SimProc) :
    (touchFD t p).arrival_time = p.arrival_time := by
  unfold touchFD; split <;> rfl

theorem touchFD_burst (t : Nat) (p : SimProc) :
    (touchFD t p).burst_time = p.burst_time := by
  unfold touchFD; split <;> rfl

theorem touchFD_completion (t : Nat) (p : SimProc) :
    (touchFD t p).completion_time = p.completion_time := by
  unfold touchFD; split <;> rfl

theorem touchFD_pid (t : Nat) (p : SimProc) : (touchFD t p).pid = p.pid := by
  unfold touchFD; split <;> rfl

theorem touchFD_fd (t : Nat) (p : SimProc) (harr : p.arrival_time ≤ t)
    (hfd : p.first_dispatch_time = none ∨
      ∃ fd, p.first_dispatch_time = some fd ∧ p.arrival_time ≤ fd) :
    ∃ fd, (touchFD t p).first_dispatch_time = some fd ∧ p.arrival_time ≤ fd := by
  unfold touchFD
  by_cases h : p.first_dispatch_time = none
  · rw [if_pos h]; exact ⟨t, rfl, harr⟩
  · rw [if_neg h]
    rcases hfd with h0 | hex
    · exact absurd h0 h
    · exact hex

theorem sliceLen_eq (q : Nat) (s : EngineState) (i : Nat) :
    sliceLen q s i = min q (getP s i).remaining_time := by
  unfold sliceLen; rw [touchFD_remaining]

theorem sliceLen_le (q : Nat) (s : EngineState) (i : Nat) :
    sliceLen q s i ≤ (getP s i).remaining_time := by
  rw [sliceLen_eq]; exact Nat.min_le_right _ _

theorem sliceT_eq (q : Nat) (s : EngineState) (i : Nat) :
    sliceT q s i = s.t + sliceLen q s i := rfl

theorem sliceT_ge (q : Nat) (s : EngineState) (i : Nat) : s.t ≤ sliceT q s i :=
  Nat.le_add_right _ _

theorem sliceProc_arrival (q : Nat) (s : EngineState) (i : Nat) :
    (sliceProc q s i).arrival_time = (getP s i).arrival_time := by
  show (touchFD s.t (getP s i)).arrival_time = _
  rw [touchFD_arrival]

theorem sliceProc_burst (q : Nat) (s : EngineState) (i : Nat) :
    (sliceProc q s i).burst_time = (getP s i).burst_time := by
  show (touchFD s.t (getP s i)).burst_time = _
  rw [touchFD_burst]

theorem sliceProc_pid (q : Nat) (s : EngineState) (i : Nat) :
    (sliceProc q s i).pid = (getP s i).pid := by
  show (touchFD s.t (getP s i)).pid = _
  rw [touchFD_pid]

theorem sliceProc_completion (q : Nat) (s : EngineState) (i : Nat) :
    (sliceProc q s i).completion_time = (getP s i).completion_time := by
  show (touchFD s.t (getP s i)).completion_time = _
  rw [touchFD_completion]

theorem sliceProc_remaining (q : Nat) (s : EngineState) (i : Nat) :
    (sliceProc q s i).remaining_time = (getP s i).remaining_time - sliceLen q s i := by
  show (touchFD s.t (getP s i)).remaining_time - sliceLen q s i = _
  rw [touchFD_remaining]

theorem sliceProc_fd (q : Nat) (s : EngineState) (i : Nat) :
    (sliceProc q s i).first_dispatch_time = (touchFD s.t (getP s i)).first_dispatch_time :=
  rfl

/-! ### Projections of the two slice outcomes -/

theorem completeState_pending (q i : Nat) (rest : List Nat) (s : EngineState) :
    (completeState q i rest s).pending = s.pending := rfl

theorem completeState_queue (q i : Nat) (rest : List Nat) (s : EngineState) :
    (completeState q i rest s).queue = rest := rfl

theorem completeState_t (q i : Nat) (rest : List Nat) (s : EngineState) :
    (completeState q i rest s).t = sliceT q s i := rfl

theorem completeState_trace (q i : Nat) (rest : List Nat) (s : EngineState) :
    (completeState q i rest s).trace = s.trace ++ [(i, s.t, sliceT q s i)] := rfl

theorem completeState_procs (q i : Nat) (rest : List Nat) (s : EngineState) :
    (completeState q i rest s).procs =
      s.procs.set i { sliceProc q s i with completion_time := some (sliceT q s i) } := rfl

theorem slicedState_pending (q i : Nat) (rest : List Nat) (s : EngineState) :
    (slicedState q i rest s).pending = s.pending := rfl

theorem slicedState_queue (q i : Nat) (rest : List Nat) (s : EngineState) :
    (slicedState q i rest s).queue = rest := rfl

theorem slicedState_t (q i : Nat) (rest : List Nat) (s : EngineState) :
    (slicedState q i rest s).t = sliceT q s i := rfl

theorem slicedState_procs (q i : Nat) (rest : List Nat) (s : EngineState) :
    (slicedState q i rest s).procs = s.procs.set i (sliceProc q s i) := rfl

theorem requeueState_pending (q i : Nat) (rest : List Nat) (s : EngineState) :
    (requeueState q i rest s).pending = (admitArrivals (slicedState q i rest s)).pending := rfl

theorem requeueState_queue (q i : Nat) (rest : List Nat) (s : EngineState) :
    (requeueState q i rest s).queue = (admitArrivals (slicedState q i rest s)).queue ++ [i] := rfl

theorem requeueState_t (q i : Nat) (rest : List Nat) (s : EngineState) :
    (requeueState q i rest s).t = sliceT q s i := rfl

theorem requeueState_procs (q i : Nat) (rest : List Nat) (s : EngineState) :
    (requeueState q i rest s).procs = s.procs.set i (sliceProc q s i) := rfl

theorem requeueState_trace (q i : Nat) (rest : List Nat) (s : EngineState) :
    (requeueState q i rest s).trace = s.trace ++ [(i, s.t, sliceT q s i)] := rfl

/-! ### Invariant preservation through a dispatch slice -/

theorem completeState_inv (q : Nat) {s : EngineState} (h : Inv s) {i : Nat}
    {rest : List Nat} (hq : s.queue = i :: rest)
    (h0 : (sliceProc q s i).remaining_time = 0) :
    Inv (completeState q i rest s) := by
  obtain ⟨pend_lt, queue_lt, pend_nodup, queue_nodup, disj, burst_pos, pend_fresh,
    queue_live, queue_arr, queue_exec, queue_fd, done_ok⟩ := h
  have hmem : i ∈ s.queue := by rw [hq]; exact List.mem_cons_self i rest
  have hilt : i < s.procs.length := queue_lt i hmem
  have hrest : ∀ j ∈ rest, j ∈ s.queue := by
    intro j hj; rw [hq]; exact List.mem_cons_of_mem i hj
  have hnd : (i :: rest).Nodup := by rw [← hq]; exact queue_nodup
  have hinotrest : i ∉ rest := (List.nodup_cons.mp hnd).1
  have hrestnd : rest.Nodup := (List.nodup_cons.mp hnd).2
  have hlen : (completeState q i rest s).procs.length = s.procs.length := by
    rw [completeState_procs]; exact List.length_set _ _ _
  have hne : ∀ j, j ≠ i → getP (completeState q i rest s) j = getP s j := by
    intro j hj
    show (s.procs.set i _).getD j default = _
    exact getD_set_ne _ _ (fun hh => hj hh.symm)
  have hself : getP (completeState q i rest s) i =
      { sliceProc q s i with completion_time := some (sliceT q s i) } := by
    show (s.procs.set i _).getD i default = _
    exact getD_set_self hilt
  have hpne : ∀ j ∈ s.pending, j ≠ i := fun j hj hji => disj j hj (hji ▸ hmem)
  have hrne : ∀ j ∈ rest, j ≠ i := fun j hj hji => hinotrest (hji ▸ hj)
  refine ⟨?_, ?_, ?_, ?_, ?_, ?_, ?_, ?_, ?_, ?_, ?_, ?_⟩
  · intro j hj; rw [hlen]; exact pend_lt j hj
  · intro j hj; rw [hlen]; exact queue_lt j (hrest j hj)
  · exact pend_nodup
  · exact hrestnd
  · intro j hj hr; exact disj j hj (hrest _ hr)
  · intro p hp
    rcases List.mem_or_eq_of_mem_set hp with hpo | hpe
    · exact burst_pos p hpo
    · rw [hpe]
      show 1 ≤ (sliceProc q s i).burst_time
      rw [sliceProc_burst]
      exact burst_pos _ (getD_mem hilt)
  · intro j hj
    rw [hne j (hpne j hj)]
    exact pend_fresh j hj
  · intro j hj
    rw [hne j (hrne j hj)]
    exact queue_live j (hrest j hj)
  · intro j hj
    rw [hne j (hrne j hj), completeState_t]
    exact le_trans (queue_arr j (hrest j hj)) (sliceT_ge q s i)
  · intro j hj
    rw [hne j (hrne j hj), completeState_t]
    have h1 := queue_exec j (hrest j hj)
    have h2 := sliceT_ge q s i
    omega
  · intro j hj
    rw [hne j (hrne j hj)]
    exact queue_fd j (hrest j hj)
  · intro k hk hkp hkq
    by_cases hki : k = i
    · subst hki
      rw [hself]
      have h0' : (getP s k).remaining_time - sliceLen q s k = 0 := by
        rw [← sliceProc_remaining]; exact h0
      have hL := sliceLen_le q s k
      have hT := sliceT_eq q s k
      have hEx := queue_exec k hmem
      refine ⟨h0, ⟨sliceT q s k, rfl, ?_⟩, ?_⟩
      · show (sliceProc q s k).arrival_time + (sliceProc q s k).burst_time ≤ sliceT q s k
        rw [sliceProc_arrival, sliceProc_burst]
        omega
      · obtain ⟨fd, hfd, hle⟩ :=
          touchFD_fd s.t (getP s k) (queue_arr k hmem) (queue_fd k hmem)
        refine ⟨fd, ?_, ?_⟩
        · show (touchFD s.t (getP s k)).first_dispatch_time = some fd
          exact hfd
        · show (sliceProc q s k).arrival_time ≤ fd
          rw [sliceProc_arrival]
          exact hle
    · rw [hne k hki]
      refine done_ok k (by rw [← hlen]; exact hk) hkp ?_
      rw [hq]
      intro hc
      rcases List.mem_cons.mp hc with h1 | h2
      exacts [hki h1, hkq h2]

theorem requeueState_inv (q : Nat) {s : EngineState} (h : Inv s) {i : Nat}
    {rest : List Nat} (hq : s.queue = i :: rest)
    (h0 : (sliceProc q s i).remaining_time ≠ 0) :
    Inv (requeueState q i rest s) := by
  obtain ⟨pend_lt, queue_lt, pend_nodup, queue_nodup, disj, burst_pos, pend_fresh,
    queue_live, queue_arr, queue_exec, queue_fd, done_ok⟩ := h
  have hmem : i ∈ s.queue := by rw [hq]; exact List.mem_cons_self i rest
  have hilt : i < s.procs.length := queue_lt i hmem
  have hrest : ∀ j ∈ rest, j ∈ s.queue := by
    intro j hj; rw [hq]; exact List.mem_cons_of_mem i hj
  have hnd : (i :: rest).Nodup := by rw [← hq]; exact queue_nodup
  have hinotrest : i ∉ rest := (List.nodup_cons.mp hnd).1
  have hrestnd : rest.Nodup := (List.nodup_cons.mp hnd).2
  have hpne : ∀ j ∈ s.pending, j ≠ i := fun j hj hji => disj j hj (hji ▸ hmem)
  have hrne : ∀ j ∈ rest, j ≠ i := fun j hj hji => hinotrest (hji ▸ hj)
  have hS2ne : ∀ j, j ≠ i → getP (slicedState q i rest s) j = getP s j := by
    intro j hj
    show (s.procs.set i _).getD j default = _
    exact getD_set_ne _ _ (fun hh => hj hh.symm)
  have hS2i : getP (slicedState q i rest s) i = sliceProc q s i := by
    show (s.procs.set i _).getD i default = _
    exact getD_set_self hilt
  have hRS : ∀ j, getP (requeueState q i rest s) j = getP (slicedState q i rest s) j :=
    fun _ => rfl
  have hlen : (requeueState q i rest s).procs.length = s.procs.length := by
    rw [requeueState_procs]; exact List.length_set _ _ _
  have hRpend : ∀ j, j ∈ (requeueState q i rest s).pending ↔
      (j ∈ s.pending ∧ sliceT q s i < (getP (slicedState q i rest s) j).arrival_time) := by
    intro j
    rw [requeueState_pending, mem_admit_pending, slicedState_pending, slicedState_t]
  have hAq : ∀ j, j ∈ (admitArrivals (slicedState q i rest s)).queue ↔
      (j ∈ rest ∨ (j ∈ s.pending ∧
        (getP (slicedState q i rest s) j).arrival_time ≤ sliceT q s i)) := by
    intro j
    rw [mem_admit_queue, slicedState_pending, slicedState_queue, slicedState_t]
  have hRq : ∀ j, j ∈ (requeueState q i rest s).queue ↔
      (j ∈ (admitArrivals (slicedState q i rest s)).queue ∨ j = i) := by
    intro j
    rw [requeueState_queue]
    simp [List.mem_append]
  refine ⟨?_, ?_, ?_, ?_, ?_, ?_, ?_, ?_, ?_, ?_, ?_, ?_⟩
  · intro j hj
    rw [hlen]
    exact pend_lt j ((hRpend j).mp hj).1
  · intro j hj
    rw [hlen]
    rcases (hRq j).mp hj with h1 | h1
    · rcases (hAq j).mp h1 with h2 | ⟨h2, _⟩
      · exact queue_lt j (hrest j h2)
      · exact pend_lt j h2
    · subst h1; exact hilt
  · rw [requeueState_pending, admit_pending, slicedState_pending]
    exact pend_nodup.filter _
  · rw [requeueState_queue]
    refine List.Nodup.append ?_ (List.nodup_singleton i) ?_
    · rw [admit_queue, slicedState_queue, slicedState_pending]
      refine List.Nodup.append hrestnd (sortByArrival_nodup (pend_nodup.filter _)) ?_
      intro a ha hs
      have hap : a ∈ s.pending := (List.mem_filter.mp (mem_sortByArrival.mp hs)).1
      exact disj a hap (hrest a ha)
    · intro a ha hai
      rw [List.mem_singleton] at hai
      subst hai
      rcases (hAq a).mp ha with h1 | ⟨h2, _⟩
      exacts [hinotrest h1, disj a h2 hmem]
  · intro j hj
    obtain ⟨hjp, hjlt⟩ := (hRpend j).mp hj
    have hjne : j ≠ i := hpne j hjp
    rw [hS2ne j hjne] at hjlt
    intro hjq
    rcases (hRq j).mp hjq with h1 | h1
    · rcases (hAq j).mp h1 with h2 | ⟨_, h3⟩
      · exact disj j hjp (hrest j h2)
      · rw [hS2ne j hjne] at h3
        omega
    · exact hjne h1
  · intro p hp
    rw [requeueState_procs] at hp
    rcases List.mem_or_eq_of_mem_set hp with hpo | hpe
    · exact burst_pos p hpo
    · rw [hpe, sliceProc_burst]
      exact burst_pos _ (getD_mem hilt)
  · intro j hj
    obtain ⟨hjp, _⟩ := (hRpend j).mp hj
    have hjne : j ≠ i := hpne j hjp
    rw [hRS j, hS2ne j hjne]
    exact pend_fresh j hjp
  · intro j hj
    rw [hRS j]
    rcases (hRq j).mp hj with h1 | h1
    · rcases (hAq j).mp h1 with h2 | ⟨h2, _⟩
      · rw [hS2ne j (hrne j h2)]
        exact queue_live j (hrest j h2)
      · rw [hS2ne j (hpne j h2)]
        obtain ⟨hrm, hco, _⟩ := pend_fresh j h2
        refine ⟨?_, hco⟩
        rw [hrm]
        exact burst_pos _ (getD_mem (pend_lt j h2))
    · subst h1
      rw [hS2i]
      refine ⟨Nat.one_le_iff_ne_zero.mpr h0, ?_⟩
      rw [sliceProc_completion]
      exact (queue_live j hmem).2
  · intro j hj
    rw [hRS j, requeueState_t]
    rcases (hRq j).mp hj with h1 | h1
    · rcases (hAq j).mp h1 with h2 | ⟨h2, h3⟩
      · rw [hS2ne j (hrne j h2)]
        exact le_trans (queue_arr j (hrest j h2)) (sliceT_ge q s i)
      · rw [hS2ne j (hpne j h2)]
        rw [hS2ne j (hpne j h2)] at h3
        exact h3
    · subst h1
      rw [hS2i, sliceProc_arrival]
      exact le_trans (queue_arr j hmem) (sliceT_ge q s j)
  · intro j hj
    rw [hRS j, requeueState_t]
    rcases (hRq j).mp hj with h1 | h1
    · rcases (hAq j).mp h1 with h2 | ⟨h2, h3⟩
      · rw [hS2ne j (hrne j h2)]
        have h4 := queue_exec j (hrest j h2)
        have h5 := sliceT_ge q s i
        omega
      · rw [hS2ne j (hpne j h2)]
        rw [hS2ne j (hpne j h2)] at h3
        obtain ⟨hrm, _, _⟩ := pend_fresh j h2
        rw [hrm]
        exact Nat.add_le_add_right h3 _
    · subst h1
      rw [hS2i, sliceProc_arrival, sliceProc_burst, sliceProc_remaining]
      have h4 := queue_exec j hmem
      have h5 := sliceLen_le q s j
      have h6 := sliceT_eq q s j
      omega
  · intro j hj
    rw [hRS j]
    rcases (hRq j).mp hj with h1 | h1
    · rcases (hAq j).mp h1 with h2 | ⟨h2, _⟩
      · rw [hS2ne j (hrne j h2)]
        exact queue_fd j (hrest j h2)
      · rw [hS2ne j (hpne j h2)]
        exact Or.inl (pend_fresh j h2).2.2
    · subst h1
      rw [hS2i]
      refine Or.inr ?_
      obtain ⟨fd, hfd, hle⟩ :=
        touchFD_fd s.t (getP s j) (queue_arr j hmem) (queue_fd j hmem)
      refine ⟨fd, ?_, ?_⟩
      · rw [sliceProc_fd]; exact hfd
      · rw [sliceProc_arrival]; exact hle
  · intro k hk hkp hkq
    have hki : k ≠ i := by
      intro hkeq
      exact hkq ((hRq k).mpr (Or.inr hkeq))
    have hks : k ∉ s.pending := by
      intro hkps
      have hkps2 : k ∈ (slicedState q i rest s).pending := by
        rw [slicedState_pending]; exact hkps
      rcases admit_pending_cases hkps2 with hc | hc
      · exact hkp (by rw [requeueState_pending]; exact hc)
      · exact hkq ((hRq k).mpr (Or.inl hc))
    have hksq : k ∉ s.queue := by
      rw [hq]
      intro hc
      rcases List.mem_cons.mp hc with h1 | h2
      · exact hki h1
      · exact hkq ((hRq k).mpr (Or.inl ((hAq k).mpr (Or.inl h2))))
    rw [hRS k, hS2ne k hki]
    exact done_ok k (by rw [← hlen]; exact hk) hks hksq

theorem runSlice_inv (q : Nat) {s : EngineState} (h : Inv s) {i : Nat}
    {rest : List Nat} (hq : s.queue = i :: rest) : Inv (runSlice q i rest s) := by
  unfold runSlice
  split
  · exact completeState_inv q h hq (by assumption)
  · exact requeueState_inv q h hq (by assumption)

theorem dispatchRun_cons (q : Nat) {s : EngineState} {i : Nat} {rest : List Nat}
    (hq : s.queue = i :: rest) : dispatchRun q s = runSlice q i rest s := by
  unfold dispatchRun; rw [hq]

theorem dispatchRun_inv (q : Nat) {s : EngineState} (h : Inv s) : Inv (dispatchRun q s) := by
  cases hq : s.queue with
  | nil => unfold dispatchRun; rw [hq]; exact h
  | cons i rest => rw [dispatchRun_cons q hq]; exact runSlice_inv q h hq

/-- The invariant ignores the clock when the queue is empty. -/
theorem inv_t_update {s : EngineState} (h : Inv s) (hqe : s.queue = []) (t' : Nat) :
    Inv { s with t := t' } := by
  obtain ⟨procs, pending, queue, t, trace⟩ := s
  simp only at hqe
  subst hqe
  obtain ⟨pend_lt, queue_lt, pend_nodup, queue_nodup, disj, burst_pos, pend_fresh,
    queue_live, queue_arr, queue_exec, queue_fd, done_ok⟩ := h
  refine ⟨pend_lt, ?_, pend_nodup, List.nodup_nil, ?_, burst_pos, pend_fresh,
    ?_, ?_, ?_, ?_, done_ok⟩
  · intro j hj; cases hj
  · intro j _ hc; cases hc
  · intro j hj; cases hj
  · intro j hj; cases hj
  · intro j hj; cases hj
  · intro j hj; cases hj

/-! ### Fuel: every loop iteration makes progress -/

theorem minList_mem (t : Nat) {l : List Nat} (h : l ≠ []) : minList t l ∈ l := by
  cases l with
  | nil => exact absurd rfl h
  | cons a rest =>
    have := foldl_min_mem rest a
    simpa [minList] using this

theorem nextArrival_attained {s : EngineState} (hp : s.pending ≠ []) :
    ∃ j ∈ s.pending, (getP s j).arrival_time = nextArrival s := by
  have hmap : s.pending.map (fun i => (getP s i).arrival_time) ≠ [] := by
    intro hc
    exact hp (List.map_eq_nil_iff.mp hc)
  have hm := minList_mem s.t hmap
  obtain ⟨j, hjmem, hje⟩ := List.mem_map.mp hm
  exact ⟨j, hjmem, hje⟩

theorem admit_fuelBound_le (s : EngineState) : fuelBound (admitArrivals s) ≤ fuelBound s := by
  unfold fuelBound remSum
  rw [admit_procs, admit_pending]
  exact Nat.add_le_add_right (List.length_filter_le _ _) _

theorem idle_fuel {s : EngineState} (hp : s.pending ≠ []) :
    fuelBound (admitArrivals { s with t := nextArrival s }) < fuelBound s := by
  obtain ⟨j, hj, hja⟩ := nextArrival_attained hp
  unfold fuelBound remSum
  rw [admit_procs, admit_pending]
  refine Nat.add_lt_add_right ?_ _
  refine filter_length_lt (a := j) hj ?_
  simp only [decide_eq_false_iff_not, Decidable.not_not]
  exact le_of_eq hja

theorem sliceLen_pos (q : Nat) (s : EngineState) (i : Nat) (hq1 : 1 ≤ q)
    (hr1 : 1 ≤ (getP s i).remaining_time) : 1 ≤ sliceLen q s i := by
  rw [sliceLen_eq]
  omega

theorem completeState_fuel (q i : Nat) (rest : List Nat) (s : EngineState)
    (hq1 : 1 ≤ q) (hilt : i < s.procs.length) (hr1 : 1 ≤ (getP s i).remaining_time) :
    fuelBound (completeState q i rest s) < fuelBound s := by
  have hsum : ((s.procs.set i
      { sliceProc q s i with completion_time := some (sliceT q s i) }).map
        (fun p => p.remaining_time)).sum + (getP s i).remaining_time =
      (s.procs.map (fun p => p.remaining_time)).sum +
        ((getP s i).remaining_time - sliceLen q s i) := by
    have h1 := sum_map_set (fun p => p.remaining_time) s.procs i
      { sliceProc q s i with completion_time := some (sliceT q s i) } default hilt
    have h2 : (fun p => p.remaining_time)
        ({ sliceProc q s i with completion_time := some (sliceT q s i) } : SimProc) =
        (getP s i).remaining_time - sliceLen q s i := by
      show (sliceProc q s i).remaining_time = _
      exact sliceProc_remaining q s i
    rw [h2] at h1
    exact h1
  have hlp := sliceLen_pos q s i hq1 hr1
  have hle := sliceLen_le q s i
  unfold fuelBound remSum
  rw [completeState_pending, completeState_procs]
  omega

theorem requeueState_fuel (q i : Nat) (rest : List Nat) (s : EngineState)
    (hq1 : 1 ≤ q) (hilt : i < s.procs.length) (hr1 : 1 ≤ (getP s i).remaining_time) :
    fuelBound (requeueState q i rest s) < fuelBound s := by
  have hsum : ((s.procs.set i (sliceProc q s i)).map
        (fun p => p.remaining_time)).sum + (getP s i).remaining_time =
      (s.procs.map (fun p => p.remaining_time)).sum +
        ((getP s i).remaining_time - sliceLen q s i) := by
    have h1 := sum_map_set (fun p => p.remaining_time) s.procs i
      (sliceProc q s i) default hilt
    have h2 : (fun p => p.remaining_time) (sliceProc q s i) =
        (getP s i).remaining_time - sliceLen q s i := sliceProc_remaining q s i
    rw [h2] at h1
    exact h1
  have hlp := sliceLen_pos q s i hq1 hr1
  have hle := sliceLen_le q s i
  have hpl : (requeueState q i rest s).pending.length ≤ s.pending.length := by
    rw [requeueState_pending, admit_pending, slicedState_pending]
    exact List.length_filter_le _ _
  unfold fuelBound remSum
  rw [requeueState_procs]
  omega

theorem runSlice_fuel (q i : Nat) (rest : List Nat) (s : EngineState)
    (hq1 : 1 ≤ q) (hilt : i < s.procs.length) (hr1 : 1 ≤ (getP s i).remaining_time) :
    fuelBound (runSlice q i rest s) < fuelBound s := by
  unfold runSlice
  split
  · exact completeState_fuel q i rest s hq1 hilt hr1
  · exact requeueState_fuel q i rest s hq1 hilt hr1

/-! ### Length preservation -/

theorem admit_len (s : EngineState) : (admitArrivals s).procs.length = s.procs.length := rfl

theorem dispatchRun_len (q : Nat) (s : EngineState) :
    (dispatchRun q s).procs.length = s.procs.length := by
  cases hq : s.queue with
  | nil => unfold dispatchRun; rw [hq]
  | cons i rest =>
    rw [dispatchRun_cons q hq]
    unfold runSlice
    split
    · rw [completeState_procs]; exact List.length_set _ _ _
    · rw [requeueState_procs]; exact List.length_set _ _ _

/-! ### The loop: termination and stability -/

/-- One unfolding of the loop body. -/
theorem run_succ (q n : Nat) (s : EngineState) :
    run q (n + 1) s =
      if (admitArrivals s).queue.isEmpty then
        (if (admitArrivals s).pending.isEmpty then admitArrivals s
         else run q n (admitArrivals { admitArrivals s with t := nextArrival (admitArrivals s) }))
      else run q n (dispatchRun q (admitArrivals s)) := rfl

/-- Admission does nothing when no process is pending. -/
theorem admit_pending_nil {s : EngineState} (hp : s.pending = []) : admitArrivals s = s := by
  obtain ⟨procs, pending, queue, t, trace⟩ := s
  simp only at hp
  subst hp
  simp [admitArrivals, sortByArrival]

/-- A terminal state is a fixed point of the loop. -/
theorem run_stable (q : Nat) : ∀ (fuel : Nat) (s : EngineState),
    s.pending = [] → s.queue = [] → run q fuel s = s := by
  intro fuel
  induction fuel with
  | zero => intro s _ _; rfl
  | succ n _ =>
    intro s hp hqe
    rw [run_succ, admit_pending_nil hp, hqe, hp]
    rfl

/-- Fuel composes: running `m + k` steps is running `m` then `k`. -/
theorem run_add (q : Nat) : ∀ (m k : Nat) (s : EngineState),
    run q (m + k) s = run q k (run q m s) := by
  intro m
  induction m with
  | zero =>
    intro k s
    rw [Nat.zero_add]
    rfl
  | succ n ih =>
    intro k s
    rw [Nat.succ_add, run_succ q (n + k) s, run_succ q n s]
    by_cases h1 : (admitArrivals s).queue.isEmpty
    · by_cases h2 : (admitArrivals s).pending.isEmpty
      · rw [if_pos h1, if_pos h2, if_pos h1, if_pos h2]
        exact (run_stable q k (admitArrivals s) (List.isEmpty_iff.mp h2)
          (List.isEmpty_iff.mp h1)).symm
      · rw [if_pos h1, if_neg h2, if_pos h1, if_neg h2]
        exact ih k _
    · rw [if_neg h1, if_neg h1]
      exact ih k _

/-- Main termination argument: with fuel at least the measure, the loop
reaches the terminal state, preserving the invariant and the record
count. -/
theorem run_terminal (q : Nat) (hq1 : 1 ≤ q) :
    ∀ (fuel : Nat) (s : EngineState), Inv s → fuelBound s ≤ fuel →
      (run q fuel s).pending = [] ∧ (run q fuel s).queue = [] ∧
      Inv (run q fuel s) ∧ (run q fuel s).procs.length = s.procs.length := by
  intro fuel
  induction fuel with
  | zero =>
    intro s hInv hfb
    have hfb' : s.pending.length + remSum s ≤ 0 := hfb
    have hp : s.pending = [] := List.length_eq_zero.mp (by omega)
    have hqe : s.queue = [] := by
      cases hql : s.queue with
      | nil => rfl
      | cons a l =>
        have ha : a ∈ s.queue := by rw [hql]; exact List.mem_cons_self a l
        have h1 : 1 ≤ (getP s a).remaining_time := (hInv.queue_live a ha).1
        have h2 : (getP s a).remaining_time ≤ remSum s :=
          List.single_le_sum (fun _ _ => Nat.zero_le _) _
            (List.mem_map_of_mem _ (getD_mem (hInv.queue_lt a ha)))
        omega
    exact ⟨hp, hqe, hInv, rfl⟩
  | succ n ih =>
    intro s hInv hfb
    rw [run_succ]
    by_cases h1 : (admitArrivals s).queue.isEmpty
    · by_cases h2 : (admitArrivals s).pending.isEmpty
      · rw [if_pos h1, if_pos h2]
        exact ⟨List.isEmpty_iff.mp h2, List.isEmpty_iff.mp h1, admit_inv hInv, rfl⟩
      · rw [if_pos h1, if_neg h2]
        have hqe : (admitArrivals s).queue = [] := List.isEmpty_iff.mp h1
        have hpne : (admitArrivals s).pending ≠ [] := fun hc => h2 (by rw [hc]; rfl)
        have hInv2 : Inv (admitArrivals { admitArrivals s with t := nextArrival (admitArrivals s) }) :=
          admit_inv (inv_t_update (admit_inv hInv) hqe _)
        have hdec : fuelBound (admitArrivals { admitArrivals s with t := nextArrival (admitArrivals s) }) ≤ n := by
          have hd1 : fuelBound (admitArrivals { admitArrivals s with t := nextArrival (admitArrivals s) }) <
              fuelBound (admitArrivals s) := idle_fuel hpne
          have hd2 := admit_fuelBound_le s
          omega
        obtain ⟨a, b, c, d⟩ := ih _ hInv2 hdec
        exact ⟨a, b, c, d⟩
    · rw [if_neg h1]
      have hqne : (admitArrivals s).queue ≠ [] := fun hc => h1 (by rw [hc]; rfl)
      obtain ⟨i, rest, heq⟩ := List.exists_cons_of_ne_nil hqne
      have hInvA : Inv (admitArrivals s) := admit_inv hInv
      have hInv2 : Inv (dispatchRun q (admitArrivals s)) := dispatchRun_inv q hInvA
      have hmemi : i ∈ (admitArrivals s).queue := by rw [heq]; exact List.mem_cons_self i rest
      have hdec : fuelBound (dispatchRun q (admitArrivals s)) ≤ n := by
        have hd1 : fuelBound (dispatchRun q (admitArrivals s)) < fuelBound (admitArrivals s) := by
          rw [dispatchRun_cons q heq]
          exact runSlice_fuel q i rest (admitArrivals s) hq1 (hInvA.queue_lt i hmemi)
            (hInvA.queue_live i hmemi).1
        have hd2 := admit_fuelBound_le s
        omega
      obtain ⟨a, b, c, d⟩ := ih _ hInv2 hdec
      refine ⟨a, b, c, ?_⟩
      rw [d, dispatchRun_len, admit_len]

/-! ### The initial state satisfies the invariant -/

theorem initState_procs_eq (input : List (Int × Nat × Nat)) :
    (initState input).procs =
      input.map (fun r => SimProc.mk r.1 r.2.1 r.2.2 r.2.2 none none) := rfl

theorem initState_len (input : List (Int × Nat × Nat)) :
    (initState input).procs.length = input.length := by
  rw [initState_procs_eq]
  exact List.length_map _ _

theorem initState_inv (input : List (Int × Nat × Nat))
    (hb : ∀ r ∈ input, 1 ≤ r.2.2) : Inv (initState input) := by
  have hpend : (initState input).pending = List.range (initState input).procs.length := rfl
  have hqe : (initState input).queue = [] := rfl
  refine ⟨?_, ?_, ?_, ?_, ?_, ?_, ?_, ?_, ?_, ?_, ?_, ?_⟩
  · intro i hi
    rw [hpend, List.mem_range] at hi
    exact hi
  · intro i hi; rw [hqe] at hi; cases hi
  · rw [hpend]; exact List.nodup_range _
  · rw [hqe]; exact List.nodup_nil
  · intro i _ hc; rw [hqe] at hc; cases hc
  · intro p hp
    rw [initState_procs_eq] at hp
    obtain ⟨r, hr, he⟩ := List.mem_map.mp hp
    rw [← he]
    exact hb r hr
  · intro i hi
    rw [hpend, List.mem_range] at hi
    have hm : getP (initState input) i ∈ (initState input).procs := getD_mem hi
    rw [initState_procs_eq] at hm
    obtain ⟨r, _, he⟩ := List.mem_map.mp hm
    rw [← he]
    exact ⟨rfl, rfl, rfl⟩
  · intro i hi; rw [hqe] at hi; cases hi
  · intro i hi; rw [hqe] at hi; cases hi
  · intro i hi; rw [hqe] at hi; cases hi
  · intro i hi; rw [hqe] at hi; cases hi
  · intro i hlt hip _
    exact absurd (by rw [hpend]; exact List.mem_range.mpr hlt) hip

/-! ### Completion of every process -/

/-- In the final state, every process record satisfies `doneOK`. -/
theorem finalState_doneOK (input : List (Int × Nat × Nat)) (q : Nat)
    (hq1 : 1 ≤ q) (hb : ∀ r ∈ input, 1 ≤ r.2.2) :
    ∀ p ∈ (finalState input q).procs, doneOK p := by
  obtain ⟨hp, hqe, hInv, _⟩ := run_terminal q hq1 (fuelBound (initState input))
    (initState input) (initState_inv input hb) (le_refl _)
  intro p hpm
  obtain ⟨i, hi, he⟩ := mem_getD hpm default
  have hd := hInv.done_ok i hi
    (by rw [hp]; exact List.not_mem_nil i)
    (by rw [hqe]; exact List.not_mem_nil i)
  rw [← he]
  exact hd

/-- The process count survives the simulation. -/
theorem finalState_len (input : List (Int × Nat × Nat)) (q : Nat)
    (hq1 : 1 ≤ q) (hb : ∀ r ∈ input, 1 ≤ r.2.2) :
    (finalState input q).procs.length = input.length := by
  obtain ⟨_, _, _, hlen⟩ := run_terminal q hq1 (fuelBound (initState input))
    (initState input) (initState_inv input hb) (le_refl _)
  rw [show (finalState input q).procs.length = (run q (fuelBound (initState input))
    (initState input)).procs.length from rfl, hlen, initState_len]

/-! ### Sums and option-valued metrics -/

theorem foldl_add_eq_sum (g : SimProc → Int) (l : List SimProc) :
    ∀ a : Int, l.foldl (fun acc p => acc + g p) a = a + (l.map g).sum := by
  induction l with
  | nil => intro a; simp
  | cons x xs ih =>
    intro a
    simp only [List.foldl_cons, List.map_cons, List.sum_cons]
    rw [ih (a + g x)]
    ring

theorem map_eq_map_some (f : SimProc → Option Int) (l : List SimProc)
    (h : ∀ p ∈ l, (f p).isSome = true) :
    l.map f = (l.map (fun p => (f p).getD 0)).map some := by
  induction l with
  | nil => rfl
  | cons x xs ih =>
    simp only [List.map_cons]
    have hx : f x = some ((f x).getD 0) := by
      have := h x (List.mem_cons_self x xs)
      cases hfx : f x with
      | none => rw [hfx] at this; cases this
      | some v => rfl
    rw [← hx]
    rw [ih (fun p hp => h p (List.mem_cons_of_mem x hp))]

theorem doneOK_waiting (p : SimProc) (h : doneOK p) :
    (waiting_time p).isSome = true ∧
    ∀ w, waiting_time p = some w → 0 ≤ w := by
  obtain ⟨_, ⟨c, hc, hcge⟩, _⟩ := h
  constructor
  · rw [waiting_time, hc]; rfl
  · intro w hw
    rw [waiting_time, hc] at hw
    have hw' : (c : Int) - (p.arrival_time : Int) - (p.burst_time : Int) = w :=
      Option.some.inj hw
    omega

theorem doneOK_response (p : SimProc) (h : doneOK p) :
    (response_time p).isSome = true ∧
    ∀ r, response_time p = some r → 0 ≤ r := by
  obtain ⟨_, _, ⟨fd, hfd, hfdge⟩⟩ := h
  constructor
  · rw [response_time, hfd]; rfl
  · intro r hr
    rw [response_time, hfd] at hr
    have hr' : (fd : Int) - (p.arrival_time : Int) = r := Option.some.inj hr
    omega

/-! ### FIFO ordering within the queue -/

/-- `a` sits strictly in front of `b` in the list. -/
def precedes (a b : Nat) (l : List Nat) : Prop :=
  ∃ l1 l2 l3, l = l1 ++ a :: (l2 ++ b :: l3)

theorem precedes_append (a b : Nat) (l l' : List Nat) (h : precedes a b l) :
    precedes a b (l ++ l') := by
  obtain ⟨l1, l2, l3, he⟩ := h
  exact ⟨l1, l2, l3 ++ l', by rw [he]; simp⟩

theorem precedes_nonempty {a b : Nat} {l : List Nat} (h : precedes a b l) : l ≠ [] := by
  obtain ⟨l1, l2, l3, he⟩ := h
  intro hc
  rw [hc] at he
  exact List.cons_ne_nil a _ (List.append_eq_nil.mp he.symm).2

theorem precedes_ne {a b : Nat} {l : List Nat} (h : precedes a b l) (hnd : l.Nodup) :
    a ≠ b := by
  obtain ⟨l1, l2, l3, he⟩ := h
  rw [he] at hnd
  have hnd2 : (a :: (l2 ++ b :: l3)).Nodup := List.Nodup.of_append_right hnd
  have hnotin : a ∉ l2 ++ b :: l3 := (List.nodup_cons.mp hnd2).1
  intro hab
  exact hnotin (List.mem_append_right l2 (by rw [← hab]; exact List.mem_cons_self a l3))

theorem precedes_head {a b c : Nat} {l : List Nat} (h : precedes a b (c :: l))
    (hca : c ≠ a) (hnd : (c :: l).Nodup) : precedes a b l ∧ c ≠ b := by
  obtain ⟨l1, l2, l3, he⟩ := h
  cases l1 with
  | nil =>
    rw [List.nil_append] at he
    exact absurd (List.head_eq_of_cons_eq he) hca
  | cons x xs =>
    rw [List.cons_append] at he
    have hc : c = x := List.head_eq_of_cons_eq he
    have hl : l = xs ++ a :: (l2 ++ b :: l3) := List.tail_eq_of_cons_eq he
    have hbmem : b ∈ l := by
      rw [hl]
      exact List.mem_append_right _ (List.mem_cons_of_mem a
        (List.mem_append_right _ (List.mem_cons_self b l3)))
    refine ⟨⟨xs, l2, l3, hl⟩, ?_⟩
    intro hcb
    exact (List.nodup_cons.mp hnd).1 (by rw [hcb]; exact hbmem)

theorem runSlice_trace (q i : Nat) (rest : List Nat) (s : EngineState) :
    (runSlice q i rest s).trace = s.trace ++ [(i, s.t, sliceT q s i)] := by
  unfold runSlice
  split
  · rw [completeState_trace]
  · rw [requeueState_trace]

theorem run_trace_ext (q : Nat) : ∀ (fuel : Nat) (s : EngineState),
    ∃ ext, (run q fuel s).trace = s.trace ++ ext := by
  intro fuel
  induction fuel with
  | zero => intro s; exact ⟨[], (List.append_nil _).symm⟩
  | succ n ih =>
    intro s
    rw [run_succ]
    by_cases h1 : (admitArrivals s).queue.isEmpty
    · by_cases h2 : (admitArrivals s).pending.isEmpty
      · rw [if_pos h1, if_pos h2]
        exact ⟨[], by rw [admit_trace, List.append_nil]⟩
      · rw [if_pos h1, if_neg h2]
        obtain ⟨ext, he⟩ := ih (admitArrivals { admitArrivals s with t := nextArrival (admitArrivals s) })
        exact ⟨ext, by rw [he]; rfl⟩
    · rw [if_neg h1]
      have hqne : (admitArrivals s).queue ≠ [] := by
        intro hc
        rw [hc] at h1
        exact h1 rfl
      obtain ⟨i, rest, heq⟩ := List.exists_cons_of_ne_nil hqne
      obtain ⟨ext, he⟩ := ih (dispatchRun q (admitArrivals s))
      refine ⟨(i, (admitArrivals s).t, sliceT q (admitArrivals s) i) :: ext, ?_⟩
      rw [he, dispatchRun_cons q heq, runSlice_trace, admit_trace]
      simp

/-- FIFO dispatch order: while `a` precedes `b` in the ready queue, any
trace entry the rest of the run produces for `b` is preceded by one for
`a`. -/
theorem fifo_order (q : Nat) : ∀ (fuel : Nat) (s : EngineState) (a b : Nat),
    Inv s → precedes a b s.queue →
    ∀ ext : List (Nat × Nat × Nat), (run q fuel s).trace = s.trace ++ ext →
    ∀ (k : Nat) (e : Nat × Nat × Nat), ext[k]? = some e → e.1 = b →
    ∃ (j : Nat) (e' : Nat × Nat × Nat), j < k ∧ ext[j]? = some e' ∧ e'.1 = a := by
  intro fuel
  induction fuel with
  | zero =>
    intro s a b _ _ ext hext k e hk _
    have h0 : run q 0 s = s := rfl
    rw [h0] at hext
    have hl := congrArg List.length hext
    simp only [List.length_append] at hl
    have : ext = [] := List.eq_nil_of_length_eq_zero (by omega)
    rw [this] at hk
    simp at hk
  | succ n ih =>
    intro s a b hInv hprec ext hext k e hk hb1
    have hprec1 : precedes a b (admitArrivals s).queue := by
      rw [admit_queue]
      exact precedes_append a b _ _ hprec
    have hInv1 : Inv (admitArrivals s) := admit_inv hInv
    have hne : (admitArrivals s).queue ≠ [] := precedes_nonempty hprec1
    obtain ⟨c, rest1, heq⟩ := List.exists_cons_of_ne_nil hne
    have hEmpty : (admitArrivals s).queue.isEmpty = false := by rw [heq]; rfl
    rw [run_succ, if_neg (by rw [hEmpty]; exact Bool.false_ne_true)] at hext
    obtain ⟨ext', hext'⟩ := run_trace_ext q n (dispatchRun q (admitArrivals s))
    have htr : (dispatchRun q (admitArrivals s)).trace =
        s.trace ++ [(c, (admitArrivals s).t, sliceT q (admitArrivals s) c)] := by
      rw [dispatchRun_cons q heq, runSlice_trace, admit_trace]
    have hco : ext = (c, (admitArrivals s).t, sliceT q (admitArrivals s) c) :: ext' := by
      rw [hext', htr, List.append_assoc] at hext
      have := List.append_cancel_left hext
      rw [← this]
      rfl
    have hnd1 : (c :: rest1).Nodup := by rw [← heq]; exact hInv1.queue_nodup
    have hInv2 : Inv (dispatchRun q (admitArrivals s)) := dispatchRun_inv q hInv1
    by_cases hca : c = a
    · subst hca
      cases k with
      | zero =>
        have hab : c ≠ b := by
          rw [← heq] at hnd1
          exact precedes_ne hprec1 hnd1
        rw [hco] at hk
        simp only [List.getElem?_cons_zero] at hk
        rw [← Option.some.inj hk] at hb1
        exact absurd hb1 hab
      | succ k' =>
        refine ⟨0, (c, (admitArrivals s).t, sliceT q (admitArrivals s) c), Nat.succ_pos k', ?_, rfl⟩
        rw [hco]
        simp
    · rw [heq] at hprec1
      obtain ⟨hprec2, hcb⟩ := precedes_head hprec1 hca hnd1
      have hprec3 : precedes a b (dispatchRun q (admitArrivals s)).queue := by
        rw [dispatchRun_cons q heq]
        unfold runSlice
        split
        · rw [completeState_queue]; exact hprec2
        · rw [requeueState_queue, admit_queue, slicedState_queue]
          exact precedes_append a b _ _ (precedes_append a b _ _ hprec2)
      cases k with
      | zero =>
        rw [hco] at hk
        simp only [List.getElem?_cons_zero] at hk
        rw [← Option.some.inj hk] at hb1
        exact absurd hb1 hcb
      | succ k' =>
        have hk' : ext'[k']? = some e := by
          rw [hco] at hk
          simpa using hk
        obtain ⟨j, e', hj, hje, hja⟩ :=
          ih (dispatchRun q (admitArrivals s)) a b hInv2 hprec3 ext' hext' k' e hk' hb1
        refine ⟨j + 1, e', Nat.succ_lt_succ hj, ?_, hja⟩
        rw [hco]
        simpa using hje

end RRSpecModel

namespace RRSuite

/-! ## Claims about the source-level components -/

/-- C3 (counterexample): a quantum of `0` is accepted by the validation
in `rr.py` `main` (lines 168-173) — the check is `quantum_length < 0`,
so `0` passes and no `InvalidQuantumError` (which does not exist in the
code) is raised. -/
theorem c3_counterexample : quantum_check 0 = Except.ok 0 := rfl

/-- C3 (amended): `main` rejects exactly the negative quanta, returning
`EINVAL` before any simulation work; every non-negative quantum,
including `0`, passes validation. -/
theorem c3_amended (q : Int) :
    (quantum_check q = Except.error EINVAL ↔ q < 0) ∧
    (quantum_check q = Except.ok q ↔ 0 ≤ q) := by
  unfold quantum_check
  split_ifs with h
  · exact ⟨⟨fun _ => h, fun _ => rfl⟩,
      ⟨fun hc => absurd hc (by simp), fun hc => absurd hc (by omega)⟩⟩
  · exact ⟨⟨fun hc => absurd hc (by simp), fun hc => absurd hc h⟩,
      ⟨fun _ => by omega, fun _ => rfl⟩⟩

/-- C4 (counterexample): `init_processes` accepts a record with a
negative arrival time and a zero burst time and returns it unchanged —
no `InvalidProcessError` (the name does not appear in the code), no
clamping. -/
theorem c4_counterexample :
    init_processes ["1".data, "1, -5, 0".data] = some [⟨1, -5, 0⟩] := by decide

/-- C4 (amended): process construction performs no validation: any line
parsing as three integers becomes a record with exactly those fields,
and a duplicated line (duplicate pid) is accepted as two records. -/
theorem c4_amended (first line : List Char) (p : process_t)
    (h : parse_line line = some p) :
    init_processes [first, line, line] = some [p, p] := by
  unfold init_processes
  simp [init_loop, h]

theorem c4_witness :
    init_processes ["1".data, "1, -5, 0".data, "1, -5, 0".data] =
      some [⟨1, -5, 0⟩, ⟨1, -5, 0⟩] :=
  c4_amended "1".data "1, -5, 0".data ⟨1, -5, 0⟩ (by decide)

theorem pop_front_cons (x : process_t) (rest : List process_t) :
    process_list_t.pop_front (x :: rest) = some (x, rest) := by
  unfold process_list_t.pop_front process_list_t.first
  simp [process_list_t.remove]

/-- C8: popping the front (realised in the source by `first()` followed
by `remove`) fails exactly on the empty queue — the `none` failure
value models the empty-queue error — and on a non-empty queue returns
the front process and deletes exactly it, preserving the FIFO order of
the rest. -/
theorem c8_pop_front_contract (q : process_list_t) :
    (process_list_t.pop_front q = none ↔ q = []) ∧
    ∀ (x : process_t) (rest : List process_t), q = x :: rest →
      process_list_t.pop_front q = some (x, rest) := by
  constructor
  · constructor
    · intro h
      cases q with
      | nil => rfl
      | cons x rest =>
        rw [pop_front_cons] at h
        cases h
    · intro h
      rw [h]
      rfl
  · intro x rest hq
    rw [hq, pop_front_cons]

theorem c8_witness :
    (process_list_t.pop_front [] = none ↔ ([] : process_list_t) = []) ∧
    process_list_t.pop_front [⟨1, 0, 2⟩, ⟨2, 1, 3⟩] =
      some (⟨1, 0, 2⟩, [⟨2, 1, 3⟩]) :=
  ⟨(c8_pop_front_contract []).1,
   (c8_pop_front_contract [⟨1, 0, 2⟩, ⟨2, 1, 3⟩]).2 ⟨1, 0, 2⟩ [⟨2, 1, 3⟩] rfl⟩

theorem init_loop_spec : ∀ (lines : List (List Char)) (acc ps : List process_t),
    init_loop lines acc = some ps →
    ∃ qs, ps = acc ++ qs ∧ qs.length = lines.length ∧
      ∀ k, k < lines.length → parse_line (lines.getD k []) = some (qs.getD k default) := by
  intro lines
  induction lines with
  | nil =>
    intro acc ps h
    have hps : acc = ps := Option.some.inj h
    refine ⟨[], by rw [← hps, List.append_nil], rfl, ?_⟩
    intro k hk
    simp at hk
  | cons l ls ih =>
    intro acc ps h
    unfold init_loop at h
    cases hp : parse_line l with
    | none => rw [hp] at h; cases h
    | some p =>
      rw [hp] at h
      obtain ⟨qs, hqs, hlen, hk⟩ := ih (acc ++ [p]) ps h
      refine ⟨p :: qs, ?_, by simp [hlen], ?_⟩
      · rw [hqs]
        simp
      · intro k hkl
        cases k with
        | zero => simpa using hp
        | succ n =>
          have := hk n (by simpa using hkl)
          simpa using this

/-- C9: after the discarded first line, `init_processes` returns
exactly one record per remaining line, in file order, each parsed from
its own line's comma-separated fields; the first line's content never
affects the result. -/
theorem c9_init_processes_lines (f1 f2 : List Char) (rest : List (List Char))
    (ps : List process_t) (h : init_processes (f1 :: rest) = some ps) :
    init_processes (f2 :: rest) = some ps ∧
    ps.length = rest.length ∧
    ∀ k, k < rest.length → parse_line (rest.getD k []) = some (ps.getD k default) := by
  have h' : init_loop rest [] = some ps := h
  obtain ⟨qs, hqs, hlen, hk⟩ := init_loop_spec rest [] ps h'
  rw [List.nil_append] at hqs
  subst hqs
  exact ⟨h, hlen, hk⟩

theorem c9_witness :
    init_processes ["xyz".data, "1, 0, 3".data, "2, 1, 4".data] =
      some [⟨1, 0, 3⟩, ⟨2, 1, 4⟩] :=
  (c9_init_processes_lines "2".data "xyz".data ["1, 0, 3".data, "2, 1, 4".data]
    [⟨1, 0, 3⟩, ⟨2, 1, 4⟩] (by decide)).1

theorem handle_event_chain (p : GanttChartParser) (e : HtmlEvent)
    (p' : GanttChartParser) (h : p.handle_event e = some p')
    (hc : List.Chain' (fun a b => a ≠ b) p.times) :
    List.Chain' (fun a b => a ≠ b) p'.times := by
  cases e with
  | starttag tag attrs =>
    have he : p' = p.handle_starttag tag attrs := (Option.some.inj h).symm
    have ht : (p.handle_starttag tag attrs).times = p.times := by
      unfold GanttChartParser.handle_starttag
      split_ifs <;> rfl
    rw [he, ht]
    exact hc
  | endtag tag =>
    have he : p' = p.handle_endtag tag := (Option.some.inj h).symm
    have ht : (p.handle_endtag tag).times = p.times := by
      unfold GanttChartParser.handle_endtag
      split_ifs <;> rfl
    rw [he, ht]
    exact hc
  | data d =>
    have h' : p.handle_data d = some p' := h
    unfold GanttChartParser.handle_data at h'
    split_ifs at h' with h1 h2
    · rw [← Option.some.inj h']
      exact hc
    · cases hpi : pyInt d with
      | none =>
        rw [hpi] at h'
        have hcon : (none : Option GanttChartParser) = some p' := h'
        cases hcon
      | some time =>
        rw [hpi] at h'
        have h'' : (if p.times = [] ∨ p.times.getLast? ≠ some time then
            some { p with times := p.times ++ [time] } else some p) = some p' := h'
        split_ifs at h'' with h3
        · rw [← Option.some.inj h'']
          show List.Chain' (fun a b => a ≠ b) (p.times ++ [time])
          rcases h3 with h4 | h4
          · rw [h4]
            simp
          · refine List.Chain'.append hc (List.chain'_singleton _) ?_
            intro x hx y hy
            simp only [List.head?_cons, Option.mem_def, Option.some.injEq] at hy
            rw [Option.mem_def] at hx
            intro hxy
            apply h4
            rw [hx, hxy, hy]
        · rw [← Option.some.inj h'']
          exact hc
    · rw [← Option.some.inj h']
      exact hc

theorem feed_chain : ∀ (events : List HtmlEvent) (p : GanttChartParser),
    List.Chain' (fun a b => a ≠ b) p.times →
    ∀ p', p.feed events = some p' →
    List.Chain' (fun a b => a ≠ b) p'.times := by
  intro events
  induction events with
  | nil =>
    intro p hc p' h
    rw [← Option.some.inj h]
    exact hc
  | cons e es ih =>
    intro p hc p' h
    unfold GanttChartParser.feed at h
    cases he : p.handle_event e with
    | none => rw [he] at h; cases h
    | some p1 =>
      rw [he] at h
      exact ih p1 (handle_event_chain p e p1 he hc) p' h

/-- C10: whatever HTML document is fed to `GanttChartParser`, the list
returned by `get_times` contains no two consecutive equal elements — a
time cell equal to the previously recorded time is skipped, so a
boundary time duplicated by chart row wrapping appears once. -/
theorem c10_no_consecutive_dup_times (events : List HtmlEvent)
    (p : GanttChartParser) (h : GanttChartParser.init.feed events = some p) :
    List.Chain' (fun a b => a ≠ b) p.get_times := by
  have hinit : List.Chain' (fun a b => a ≠ b) GanttChartParser.init.times :=
    List.chain'_nil
  exact feed_chain events GanttChartParser.init hinit p h

/-- A small document: one pid row, a wrapped times row in which the
boundary time `0` appears twice in consecutive cells. -/
def c10Events : List HtmlEvent := [
  HtmlEvent.starttag "div".data [("class".data, some OUTERMOST_DIV_CLASSNAME)],
  HtmlEvent.starttag "div".data [],
  HtmlEvent.starttag "div".data [],
  HtmlEvent.starttag "div".data [],
  HtmlEvent.data "P1".data,
  HtmlEvent.endtag "div".data,
  HtmlEvent.endtag "div".data,
  HtmlEvent.starttag "div".data [],
  HtmlEvent.starttag "div".data [],
  HtmlEvent.data "0".data,
  HtmlEvent.endtag "div".data,
  HtmlEvent.starttag "div".data [],
  HtmlEvent.data "0".data,
  HtmlEvent.data "4".data]

theorem c10_witness :
    List.Chain' (fun a b => a ≠ b)
      (GanttChartParser.mk true true false true false true true ["P1".data]
        [0, 4]).get_times :=
  c10_no_consecutive_dup_times c10Events
    (GanttChartParser.mk true true false true false true true ["P1".data] [0, 4])
    (by decide)

end RRSuite

namespace RRSpecModel

/-! ## Claims about the scheduling engine (modelled from the spec) -/

/-- C1: process `P` is running (front of the queue, dispatched now)
with more than one quantum of work left, so its quantum expires at
`T = t + quantum` and it is preempted; process `Q` is pending with
`arrival_time = T`.  Then after the dispatch step (including the
requeue of step 6) `Q` strictly precedes `P` in the ready queue, and in
the remainder of the run every trace entry of `P` is preceded by an
earlier entry of `Q` — `Q` is dispatched before `P` runs again. -/
theorem c1_preemption_arrival_order (q : Nat) (s : EngineState) (P Q : Nat)
    (rest : List Nat) (hInv : Inv s) (hqueue : s.queue = P :: rest)
    (hrem : q < (getP s P).remaining_time) (hQ : Q ∈ s.pending)
    (harr : (getP s Q).arrival_time = s.t + q) :
    precedes Q P (dispatchRun q s).queue ∧
    ∀ (fuel : Nat) (ext : List (Nat × Nat × Nat)),
      (run q fuel (dispatchRun q s)).trace = (dispatchRun q s).trace ++ ext →
      ∀ (k : Nat) (e : Nat × Nat × Nat), ext[k]? = some e → e.1 = P →
      ∃ (j : Nat) (e' : Nat × Nat × Nat), j < k ∧ ext[j]? = some e' ∧ e'.1 = Q := by
  have hmem : P ∈ s.queue := by rw [hqueue]; exact List.mem_cons_self P rest
  have hQP : Q ≠ P := fun hqp => hInv.disj Q hQ (hqp ▸ hmem)
  have hilt : P < s.procs.length := hInv.queue_lt P hmem
  have hlenq : sliceLen q s P = q := by
    rw [sliceLen_eq]
    omega
  have h0 : (sliceProc q s P).remaining_time ≠ 0 := by
    rw [sliceProc_remaining, hlenq]
    omega
  have hd : dispatchRun q s = requeueState q P rest s := by
    rw [dispatchRun_cons q hqueue]
    unfold runSlice
    rw [if_neg h0]
  have hQarr : (getP (slicedState q P rest s) Q).arrival_time ≤
      (slicedState q P rest s).t := by
    have hgQ : getP (slicedState q P rest s) Q = getP s Q := by
      show (s.procs.set P _).getD Q default = _
      exact getD_set_ne _ _ (fun hh => hQP hh.symm)
    rw [hgQ, slicedState_t, harr, sliceT_eq, hlenq]
  have hQmem : Q ∈ (admitArrivals (slicedState q P rest s)).queue := by
    refine mem_admit_queue.mpr (Or.inr ⟨?_, hQarr⟩)
    show Q ∈ s.pending
    exact hQ
  have hprec : precedes Q P (requeueState q P rest s).queue := by
    rw [requeueState_queue]
    obtain ⟨u, v, huv⟩ := List.append_of_mem hQmem
    refine ⟨u, v, [], ?_⟩
    rw [huv]
    simp
  constructor
  · rw [hd]
    exact hprec
  · intro fuel ext hext k e hk hP1
    exact fifo_order q fuel (dispatchRun q s) Q P (dispatchRun_inv q hInv)
      (by rw [hd]; exact hprec) ext hext k e hk hP1

/-- A state in which process 0 (pid 1) is about to be dispatched with 5
units left under quantum 2, while process 1 (pid 2) arrives exactly
when the quantum expires (time 2). -/
def c1State : EngineState :=
  ⟨[⟨1, 0, 5, 5, none, none⟩, ⟨2, 2, 3, 3, none, none⟩], [1], [0], 0, []⟩

theorem c1_witness : precedes 1 0 (dispatchRun 2 c1State).queue :=
  (c1_preemption_arrival_order 2 c1State 0 1 []
    (by rw [inv_iff]; decide) rfl (by decide) (by decide) (by decide)).1

/-- C2: for every valid input (non-negative arrivals by type, strictly
positive bursts, positive quantum) the simulation terminates — some
fuel reaches a state that no amount of extra fuel changes — and at
termination nothing is pending or queued and every process has
`remaining_time = 0` and its `completion_time` set. -/
theorem c2_termination_completion (input : List (Int × Nat × Nat)) (q : Nat)
    (hq1 : 1 ≤ q) (hb : ∀ r ∈ input, 1 ≤ r.2.2) :
    ∃ fuel : Nat,
      (∀ k : Nat, run q (fuel + k) (initState input) = run q fuel (initState input)) ∧
      (run q fuel (initState input)).pending = [] ∧
      (run q fuel (initState input)).queue = [] ∧
      ∀ p ∈ (run q fuel (initState input)).procs,
        p.remaining_time = 0 ∧ p.completion_time.isSome = true := by
  obtain ⟨hp, hqe, hInv, _⟩ := run_terminal q hq1 (fuelBound (initState input))
    (initState input) (initState_inv input hb) (le_refl _)
  refine ⟨fuelBound (initState input), ?_, hp, hqe, ?_⟩
  · intro k
    rw [run_add]
    exact run_stable q k _ hp hqe
  · intro p hpm
    obtain ⟨h0, ⟨c, hc, _⟩, _⟩ := finalState_doneOK input q hq1 hb p hpm
    exact ⟨h0, by rw [hc]; rfl⟩

theorem c2_witness :
    ∃ fuel : Nat,
      (∀ k : Nat, run 2 (fuel + k) (initState [(1, 0, 5), (2, 1, 3), (3, 2, 1)]) =
        run 2 fuel (initState [(1, 0, 5), (2, 1, 3), (3, 2, 1)])) ∧
      (run 2 fuel (initState [(1, 0, 5), (2, 1, 3), (3, 2, 1)])).pending = [] ∧
      (run 2 fuel (initState [(1, 0, 5), (2, 1, 3), (3, 2, 1)])).queue = [] ∧
      ∀ p ∈ (run 2 fuel (initState [(1, 0, 5), (2, 1, 3), (3, 2, 1)])).procs,
        p.remaining_time = 0 ∧ p.completion_time.isSome = true :=
  c2_termination_completion [(1, 0, 5), (2, 1, 3), (3, 2, 1)] 2
    (by decide) (by decide)

/-- C5 (code bug): with zero processes the engine terminates at once
with an empty trace, but the average computation of `rr.py` lines
190-191 divides the integer totals by `size = 0`, raising
`ZeroDivisionError` (modelled as `none`) instead of reporting
degenerate averages. -/
theorem c5_zero_processes :
    (finalState [] 2).trace = [] ∧
    avg_waiting_time (finalState [] 2) = none ∧
    avg_response_time (finalState [] 2) = none := by
  refine ⟨rfl, ?_, ?_⟩ <;> decide

/-- C7: for every valid input, every process of the final state has its
first dispatch and completion recorded, `response_time` equals
`first_dispatch_time - arrival_time`, `waiting_time` equals
`completion_time - arrival_time - burst_time`, and both are
non-negative. -/
theorem c7_metrics_nonneg (input : List (Int × Nat × Nat)) (q : Nat)
    (hq1 : 1 ≤ q) (hb : ∀ r ∈ input, 1 ≤ r.2.2) :
    ∀ p ∈ (finalState input q).procs,
      ∃ (fd c : Nat), p.first_dispatch_time = some fd ∧
        p.completion_time = some c ∧
        response_time p = some ((fd : Int) - (p.arrival_time : Int)) ∧
        waiting_time p = some ((c : Int) - (p.arrival_time : Int) - (p.burst_time : Int)) ∧
        0 ≤ (fd : Int) - (p.arrival_time : Int) ∧
        0 ≤ (c : Int) - (p.arrival_time : Int) - (p.burst_time : Int) := by
  intro p hpm
  obtain ⟨h0, ⟨c, hc, hcge⟩, ⟨fd, hfd, hfdge⟩⟩ :=
    finalState_doneOK input q hq1 hb p hpm
  refine ⟨fd, c, hfd, hc, ?_, ?_, ?_, ?_⟩
  · rw [response_time, hfd]
    rfl
  · rw [waiting_time, hc]
    rfl
  · omega
  · omega

theorem c7_witness :
    ∃ (fd c : Nat),
      (⟨1, 0, 4, 0, some 0, some 4⟩ : SimProc).first_dispatch_time = some fd ∧
      (⟨1, 0, 4, 0, some 0, some 4⟩ : SimProc).completion_time = some c ∧
      response_time ⟨1, 0, 4, 0, some 0, some 4⟩ =
        some ((fd : Int) - ((0 : Nat) : Int)) ∧
      waiting_time ⟨1, 0, 4, 0, some 0, some 4⟩ =
        some ((c : Int) - ((0 : Nat) : Int) - ((4 : Nat) : Int)) ∧
      0 ≤ (fd : Int) - ((0 : Nat) : Int) ∧
      0 ≤ (c : Int) - ((0 : Nat) : Int) - ((4 : Nat) : Int) :=
  c7_metrics_nonneg [(1, 0, 4)] 10 (by decide) (by decide)
    ⟨1, 0, 4, 0, some 0, some 4⟩ (by decide)

/-- C6: for every valid non-empty input, both averages are exact: the
per-process waiting and response times are all defined, the totals are
their exact integer sums, and each reported average is the exact
rational `total / count` — no intermediate rounding. -/
theorem c6_averages_exact (input : List (Int × Nat × Nat)) (q : Nat)
    (hq1 : 1 ≤ q) (hb : ∀ r ∈ input, 1 ≤ r.2.2) (hne : input ≠ []) :
    ∃ ws rs : List Int,
      (finalState input q).procs.map waiting_time = ws.map some ∧
      (finalState input q).procs.map response_time = rs.map some ∧
      ws.length = input.length ∧ rs.length = input.length ∧
      avg_waiting_time (finalState input q) =
        some ((ws.sum : ℚ) / (input.length : ℚ)) ∧
      avg_response_time (finalState input q) =
        some ((rs.sum : ℚ) / (input.length : ℚ)) := by
  have hall := finalState_doneOK input q hq1 hb
  have hws : ∀ p ∈ (finalState input q).procs, (waiting_time p).isSome = true :=
    fun p hp => (doneOK_waiting p (hall p hp)).1
  have hrs : ∀ p ∈ (finalState input q).procs, (response_time p).isSome = true :=
    fun p hp => (doneOK_response p (hall p hp)).1
  have hlen := finalState_len input q hq1 hb
  have hlz : ¬ (finalState input q).procs.length = 0 := by
    rw [hlen]
    intro hc
    exact hne (List.eq_nil_of_length_eq_zero hc)
  have htw : total_waiting_time (finalState input q) =
      0 + ((finalState input q).procs.map (fun p => (waiting_time p).getD 0)).sum :=
    foldl_add_eq_sum (fun p => (waiting_time p).getD 0) (finalState input q).procs 0
  have htr : total_response_time (finalState input q) =
      0 + ((finalState input q).procs.map (fun p => (response_time p).getD 0)).sum :=
    foldl_add_eq_sum (fun p => (response_time p).getD 0) (finalState input q).procs 0
  rw [zero_add] at htw htr
  refine ⟨(finalState input q).procs.map (fun p => (waiting_time p).getD 0),
          (finalState input q).procs.map (fun p => (response_time p).getD 0),
          map_eq_map_some _ _ hws, map_eq_map_some _ _ hrs, ?_, ?_, ?_, ?_⟩
  · rw [List.length_map, hlen]
  · rw [List.length_map, hlen]
  · rw [avg_waiting_time, if_neg hlz, htw, hlen]
  · rw [avg_response_time, if_neg hlz, htr, hlen]

theorem c6_witness :
    ∃ ws rs : List Int,
      (finalState [(1, 0, 5), (2, 1, 3), (3, 2, 1)] 2).procs.map waiting_time =
        ws.map some ∧
      (finalState [(1, 0, 5), (2, 1, 3), (3, 2, 1)] 2).procs.map response_time =
        rs.map some ∧
      ws.length = 3 ∧ rs.length = 3 ∧
      avg_waiting_time (finalState [(1, 0, 5), (2, 1, 3), (3, 2, 1)] 2) =
        some ((ws.sum : ℚ) / ((3 : Nat) : ℚ)) ∧
      avg_response_time (finalState [(1, 0, 5), (2, 1, 3), (3, 2, 1)] 2) =
        some ((rs.sum : ℚ) / ((3 : Nat) : ℚ)) :=
  c6_averages_exact [(1, 0, 5), (2, 1, 3), (3, 2, 1)] 2
    (by decide) (by decide) (by decide)

end RRSpecModel
